import Mathlib

/-!
# Silent payment output construction

A shallow embedding of `btcutil/silentpayments/input.go` (`CreateOutputs`,
`InputCompatible`, `serializeOutpoint`, `sortableInputSlice`).

* Byte strings are lists of naturals, one element per byte.
* A scalar (`btcec.ModNScalar`, `btcec.PrivateKey`) is the natural number it
  holds; arithmetic is written out with an explicit `% n`.
* A public key is its pair of affine coordinates.
* The packages the file imports (`btcec`, `chainhash`, `txscript`, `sort`) and
  the `Address` methods are not part of the embedded sources; they are the
  fields of `Env`, and every statement is made for an arbitrary `Env`.
* `CreateOutputs` sorts the slice it is given in place, so the embedding returns
  the final contents of that slice next to the Go return values.
-/

namespace SilentPayments

/-- A byte string. -/
abbrev Bytes := List Nat

/-- The affine coordinates held by a `btcec.PublicKey`. -/
structure PublicKey where
  x : Nat
  y : Nat
deriving DecidableEq, Repr

/-- The script classes of `txscript.ScriptClass`. -/
inductive ScriptClass where
  | NonStandardTy
  | PubKeyTy
  | PubKeyHashTy
  | WitnessV0PubKeyHashTy
  | ScriptHashTy
  | WitnessV0ScriptHashTy
  | MultiSigTy
  | NullDataTy
  | WitnessV1TaprootTy
  | WitnessUnknownTy
deriving DecidableEq, Repr

/-- A parsed script, `txscript.PkScript`: its class and its bytes. -/
structure PkScript where
  Class : ScriptClass
  script : Bytes
deriving DecidableEq, Repr

/-- The zero value `txscript.PkScript{}`. -/
def PkScript.zero : PkScript := ⟨ScriptClass.NonStandardTy, []⟩

/-- The type `wire.OutPoint`: a transaction id and an output index. -/
structure OutPoint where
  Hash : Bytes
  Index : Nat
deriving DecidableEq, Repr

/-- The type `wire.TxOut`. -/
structure TxOut where
  Value : Int
  PkScript : Bytes
deriving DecidableEq, Repr

/-- Input describes a UTXO that should be spent. -/
structure Input where
  OutPoint : OutPoint
  Utxo : TxOut
  PrivKey : Nat
deriving DecidableEq, Repr

/-- A silent payment address, as far as `CreateOutputs` looks into it. -/
structure Address where
  ScanKey : PublicKey
  SpendKey : PublicKey
deriving DecidableEq, Repr

/-- The struct `OutputWithAddress` of output.go. -/
structure OutputWithAddress where
  Address : Address
  OutputKey : PublicKey
deriving DecidableEq, Repr

/-- The error `InputCompatible` returns: "error parsing pkScript". -/
inductive ScriptErr where
  | parsing
deriving DecidableEq, Repr

/-- The ways in which `CreateOutputs` does not return outputs. -/
inductive Err where
  /-- "no inputs provided" -/
  | noInputs
  /-- "unable check input %d for silent payment transaction compatibility" -/
  | unableCheck (idx : Nat) (cause : ScriptErr)
  /-- "input %d (%v) is not compatible with silent payment transactions" -/
  | incompatible (idx : Nat) (cls : ScriptClass)
  /-- "sum of input keys is zero" -/
  | sumZero
  /-- "tagged hash overflow" -/
  | hashOverflow
  /-- "tagged hash is zero" -/
  | hashZero
  /-- The run-time failure of an index expression (`inputs[0]`, `recipients[0]`)
  on an empty slice. -/
  | indexOutOfRange
deriving DecidableEq, Repr

deriving instance DecidableEq for Except

/-- The collaborators of input.go that live in other packages and files. -/
structure Env where
  /-- The order of the group, `N` of secp256k1. -/
  n : Nat
  /-- The prime of the coordinate field, `P` of secp256k1. -/
  p : Nat
  /-- The affine result of `btcec.ScalarBaseMultNonConst`; also `PrivateKey.PubKey`. -/
  ScalarBaseMult : Nat → PublicKey
  /-- The affine result of `btcec.ScalarMultNonConst`. -/
  ScalarMult : Nat → PublicKey → PublicKey
  /-- The affine result of `btcec.AddNonConst`. -/
  AddNonConst : PublicKey → PublicKey → PublicKey
  /-- The 32 byte digest of `chainhash.TaggedHash tag msg`. -/
  TaggedHash : Bytes → Bytes → Bytes
  /-- The key returned by `txscript.TweakTaprootPrivKey`. -/
  TweakTaprootPrivKey : Nat → Bytes → Nat
  /-- The result of `txscript.ParsePkScript`, `none` when it returns an error. -/
  ParsePkScript : Bytes → Option PkScript
  /-- The method `Address.TweakedSpendKey`. -/
  TweakedSpendKey : Address → PublicKey
  /-- The contents of the slice after `sort.Sort(sortableInputSlice(s))`. -/
  sortSort : List Input → List Input

/-- TagBIP0352Inputs is the BIP-0352 tag for a inputs: "BIP0352/Inputs". -/
def TagBIP0352Inputs : Bytes :=
  [66, 73, 80, 48, 51, 53, 50, 47, 73, 110, 112, 117, 116, 115]

/-- TagBIP0352SharedSecret is the tag for a shared secret: "BIP0352/SharedSecret". -/
def TagBIP0352SharedSecret : Bytes :=
  [66, 73, 80, 48, 51, 53, 50, 47, 83, 104, 97, 114, 101, 100, 83, 101, 99, 114, 101, 116]

/-- The constant `secp.PubKeyFormatCompressedEven`. -/
def PubKeyFormatCompressedEven : Nat := 2

/-- The constant `secp.PubKeyFormatCompressedOdd`. -/
def PubKeyFormatCompressedOdd : Nat := 3

/-- Modelled from the spec: the constant `pubKeyLength` of the package is declared
outside input.go; a compressed key is "33 bytes: 1-byte parity prefix + 32-byte X
coordinate". -/
def pubKeyLength : Nat := 33

/-- The `len` big-endian bytes of `v`, most significant first. -/
def bigEndian : Nat → Nat → Bytes
  | 0, _ => []
  | len + 1, v => bigEndian len (v / 256) ++ [v % 256]

/-- The `len` little-endian bytes of `v`, least significant first. -/
def littleEndian : Nat → Nat → Bytes
  | 0, _ => []
  | len + 1, v => (v % 256) :: littleEndian len (v / 256)

/-- The number a byte string holds, read big-endian. -/
def fromBigEndian (b : Bytes) : Nat :=
  b.foldl (fun acc byte => acc * 256 + byte) 0

/-- Modelled from the spec: `PublicKey.SerializeCompressed` of btcec, "33 bytes:
1-byte parity prefix + 32-byte X coordinate". -/
def SerializeCompressed (k : PublicKey) : Bytes :=
  (if k.y % 2 = 1 then PubKeyFormatCompressedOdd else PubKeyFormatCompressedEven)
    :: bigEndian 32 k.x

/-- The value `ModNScalar.Add` leaves in its receiver. -/
def ModNScalar.Add (n a b : Nat) : Nat := (a + b) % n

/-- The value `ModNScalar.Mul` leaves in its receiver. -/
def ModNScalar.Mul (n a b : Nat) : Nat := (a * b) % n

/-- The value `ModNScalar.Negate` leaves in its receiver. -/
def ModNScalar.Negate (n a : Nat) : Nat := (n - a % n) % n

/-- The method `ModNScalar.IsZero`. -/
def ModNScalar.IsZero (a : Nat) : Bool := a == 0

/-- The method `ModNScalar.SetBytes`: the 256 bit big-endian number reduced
modulo the group order, and whether it had to be reduced. -/
def ModNScalar.SetBytes (n : Nat) (b : Bytes) : Nat × Bool :=
  (fromBigEndian b % n, decide (n ≤ fromBigEndian b))

/-- The function `bytes.Compare`: -1, 0 or 1. -/
def bytesCompare : Bytes → Bytes → Int
  | [], [] => 0
  | [], _ :: _ => -1
  | _ :: _, [] => 1
  | a :: as, b :: bs =>
    if a < b then -1 else if b < a then 1 else bytesCompare as bs

/-- The function `wire.WriteOutPoint` into an empty buffer: the 32 bytes of the
hash, then the index as four little-endian bytes. A `bytes.Buffer` never fails a
write, so the error branches after the two writes in `CreateOutputs` are dead. -/
def WriteOutPoint (op : OutPoint) : Bytes :=
  op.Hash ++ littleEndian 4 (op.Index % 2 ^ 32)

/-- serializeOutpoint serializes an outpoint to a byte slice. -/
def serializeOutpoint (outpoint : OutPoint) : Bytes :=
  WriteOutPoint outpoint

/-- Len returns the number of inputs in the slice. -/
def sortableInputSlice.Len (s : List Input) : Nat := s.length

/-- Swap swaps the inputs at the passed indices. -/
def sortableInputSlice.Swap (s : List Input) (i j : Nat) : List Input :=
  match s[i]?, s[j]? with
  | some a, some b => (s.set i b).set j a
  | _, _ => s

/-- The comparison `Less` makes between two inputs. -/
def lessInput (a b : Input) : Bool :=
  bytesCompare (serializeOutpoint a.OutPoint) (serializeOutpoint b.OutPoint) == -1

/-- Less returns whether the input at index i should be sorted before the input
at index j lexicographically. -/
def sortableInputSlice.Less (s : List Input) (i j : Nat) : Bool :=
  match s[i]?, s[j]? with
  | some a, some b => lessInput a b
  | _, _ => false

/-- InputCompatible checks if a given pkScript is compatible with the silent
payment protocol. The three components are the three Go return values. -/
def InputCompatible (E : Env) (pkScript : Bytes) : Bool × PkScript × Option ScriptErr :=
  match E.ParsePkScript pkScript with
  | none => (false, PkScript.zero, some ScriptErr.parsing)
  | some script =>
    match script.Class with
    | ScriptClass.PubKeyHashTy => (true, script, none)
    | ScriptClass.WitnessV0PubKeyHashTy => (true, script, none)
    | ScriptClass.WitnessV1TaprootTy => (true, script, none)
    | ScriptClass.ScriptHashTy => (true, script, none)
    | _ => (false, script, none)

/-- The key the summing loop adds for an input whose parsed script has class
`cls` (lines 56 and 71 to 81 of input.go). -/
def correctedKey (E : Env) (cls : ScriptClass) (privKey : Nat) : Nat :=
  if cls = ScriptClass.WitnessV1TaprootTy then
    let a := E.TweakTaprootPrivKey privKey []
    let pubKeyBytes := SerializeCompressed (E.ScalarBaseMult a)
    if pubKeyBytes.head? = some PubKeyFormatCompressedOdd then
      ModNScalar.Negate E.n a
    else a
  else privKey

/-- The loop that sums up all the private keys of the inputs; `idx` is the index
of the first of the remaining inputs and `sumKey` the sum so far. -/
def sumLoop (E : Env) : Nat → Nat → List Input → Except Err Nat
  | _, sumKey, [] => Except.ok sumKey
  | idx, sumKey, input :: rest =>
    match InputCompatible E input.Utxo.PkScript with
    | (_, _, some err) => Except.error (Err.unableCheck idx err)
    | (ok, script, none) =>
      if !ok then Except.error (Err.incompatible idx script.Class)
      else
        sumLoop E (idx + 1)
          (ModNScalar.Add E.n sumKey (correctedKey E script.Class input.PrivKey)) rest

/-- The outpoint written into the payload of the inputs hash: that of
`inputs[0]`, read after the sort; `none` stands for the run-time failure of the
index expression on an empty slice. -/
def outpointL (sorted : List Input) : Option OutPoint :=
  sorted.head?.map (fun input => input.OutPoint)

/-- The payload of the inputs hash: the outpoint, then the compressed public key
of the summed key. -/
def inputPayload (E : Env) (outpoint : OutPoint) (sumKey : Nat) : Bytes :=
  WriteOutPoint outpoint ++ SerializeCompressed (E.ScalarBaseMult sumKey)

/-- The digest `inputHash`. -/
def inputHash (E : Env) (outpoint : OutPoint) (sumKey : Nat) : Bytes :=
  E.TaggedHash TagBIP0352Inputs (inputPayload E outpoint sumKey)

/-- The copy of the sum key tweaked with the input hash. -/
def tweakedSumKey (E : Env) (outpoint : OutPoint) (sumKey : Nat) : Nat :=
  ModNScalar.Mul E.n sumKey (ModNScalar.SetBytes E.n (inputHash E outpoint sumKey)).1

/-- The buffer `outputPayload`: `pubKeyLength+4` zero bytes, the shared secret
copied to its front, the 32 bit big-endian `k` put at offset `pubKeyLength`. -/
def outputPayload (sharedSecretBytes : Bytes) (k : Nat) : Bytes :=
  let buf := List.replicate (pubKeyLength + 4) 0
  let copied := min sharedSecretBytes.length buf.length
  let buf := sharedSecretBytes.take copied ++ buf.drop copied
  buf.take pubKeyLength ++ bigEndian 4 k

/-- The loop over the recipients of one group; `idx` is the position of the
first of the remaining recipients, `results` the outputs appended so far. -/
def recipientLoop (E : Env) (tweaked : Nat) (scanPubKey : PublicKey) :
    Nat → List Address → List OutputWithAddress → Except Err (List OutputWithAddress)
  | _, [], results => Except.ok results
  | idx, recipient :: rest, results =>
    let recipientSendKey := E.TweakedSpendKey recipient
    let sharedSecret := E.ScalarMult tweaked scanPubKey
    let sharedSecretBytes := SerializeCompressed sharedSecret
    let k := idx % 2 ^ 32
    let t := E.TaggedHash TagBIP0352SharedSecret (outputPayload sharedSecretBytes k)
    let tScalar := ModNScalar.SetBytes E.n t
    if tScalar.2 then Except.error Err.hashOverflow
    else if ModNScalar.IsZero tScalar.1 then Except.error Err.hashZero
    else
      let sharedKey := E.AddNonConst recipientSendKey (E.ScalarBaseMult tScalar.1)
      recipientLoop E tweaked scanPubKey (idx + 1) rest
        (results ++ [⟨recipient, sharedKey⟩])

/-- The loop over the groups. -/
def groupLoop (E : Env) (tweaked : Nat) :
    List (List Address) → List OutputWithAddress → Except Err (List OutputWithAddress)
  | [], results => Except.ok results
  | [] :: _, _ => Except.error Err.indexOutOfRange
  | (first :: others) :: groups, results =>
    match recipientLoop E tweaked first.ScanKey 0 (first :: others) results with
    | Except.error e => Except.error e
    | Except.ok results => groupLoop E tweaked groups results

/-- Adds an address to the group of its scan key, or opens a new last group. -/
def insertByScanKey (a : Address) : List (List Address) → List (List Address)
  | [] => [[a]]
  | g :: gs =>
    if g.head?.map (fun b => b.ScanKey) = some a.ScanKey then (g ++ [a]) :: gs
    else g :: insertByScanKey a gs

/-- Modelled from the spec: `GroupByScanKey` is declared outside input.go. "Group
recipients by identical scan public key, preserving first-occurrence order of
distinct keys"; "within-group order = input order of addresses sharing that scan
key". -/
def GroupByScanKey (addrs : List Address) : List (List Address) :=
  addrs.foldl (fun groups a => insertByScanKey a groups) []

/-- CreateOutputs creates the outputs for a silent payment transaction. The
first component is the contents of the `inputs` slice when the call returns, the
second the Go return values (`nil` with an error, or the outputs). -/
def CreateOutputs (E : Env) (inputs : List Input) (recipients : List Address) :
    List Input × Except Err (List OutputWithAddress) :=
  if inputs.length = 0 then (inputs, Except.error Err.noInputs)
  else
    match sumLoop E 0 0 inputs with
    | Except.error e => (inputs, Except.error e)
    | Except.ok sumKey =>
      if ModNScalar.IsZero sumKey then (inputs, Except.error Err.sumZero)
      else
        let sorted := E.sortSort inputs
        match outpointL sorted with
        | none => (sorted, Except.error Err.indexOutOfRange)
        | some outpoint =>
          let tweaked := tweakedSumKey E outpoint sumKey
          (sorted, groupLoop E tweaked (GroupByScanKey recipients) [])

/-! ## The contract of the sort, and the curve law of negation -/

/-- What `sort.Sort` promises for a `sortableInputSlice`: it only swaps elements,
and afterwards no element is `Less` than an element before it. -/
def SortSpec (sort : List Input → List Input) : Prop :=
  ∀ s : List Input, (sort s).Perm s ∧
    ∀ i j : Nat, i < j → j < sortableInputSlice.Len (sort s) →
      sortableInputSlice.Less (sort s) j i = false

/-- The inverse of a point: the same `x`, and `p - y` for `y`; the point at
infinity, held as `(0, 0)`, is its own inverse. -/
def negPoint (p : Nat) (k : PublicKey) : PublicKey := ⟨k.x, (p - k.y) % p⟩

/-- The law of the curve that the parity correction rests on: `p` is odd, and for
every reduced scalar the Y coordinate of its public key is reduced and the
public key of the negated scalar is the inverse of its public key. -/
def NegateSpec (E : Env) : Prop :=
  E.p % 2 = 1 ∧ ∀ a : Nat, a < E.n → (E.ScalarBaseMult a).y < E.p ∧
    E.ScalarBaseMult (ModNScalar.Negate E.n a) = negPoint E.p (E.ScalarBaseMult a)

/-- The script of input `i` parses to a class that is compatible. -/
def Compatible (E : Env) (i : Input) : Prop :=
  (InputCompatible E i.Utxo.PkScript).1 = true ∧
    (InputCompatible E i.Utxo.PkScript).2.2 = none

instance (E : Env) (i : Input) : Decidable (Compatible E i) :=
  inferInstanceAs (Decidable (_ ∧ _))

/-- The class the script of an input parses to (`NonStandardTy` if it does not
parse). -/
def classOf (E : Env) (i : Input) : ScriptClass :=
  (InputCompatible E i.Utxo.PkScript).2.1.Class

/-- The corrected scalar of an input, in the words of the specification: the
taproot tweak with an empty root for a taproot input, negated if its public key
has an odd Y; the private scalar itself for every other class. -/
def specCorrected (E : Env) (i : Input) : Nat :=
  if classOf E i = ScriptClass.WitnessV1TaprootTy then
    let t := E.TweakTaprootPrivKey i.PrivKey []
    if (E.ScalarBaseMult t).y % 2 = 1 then (E.n - t % E.n) % E.n else t
  else i.PrivKey

/-- The sum of the corrected scalars of all inputs. -/
def specSum (E : Env) (inputs : List Input) : Nat :=
  (inputs.map (specCorrected E)).sum

/-- The input hash of the specification, as a number:
`TaggedHash("BIP0352/Inputs", outpointL || serP(a·G))`. -/
def specInputHash (E : Env) (outpoint : OutPoint) (a : Nat) : Nat :=
  fromBigEndian (E.TaggedHash TagBIP0352Inputs
    (serializeOutpoint outpoint ++ SerializeCompressed (E.ScalarBaseMult a)))

/-- The tweak of the specification, as a number:
`t_k = TaggedHash("BIP0352/SharedSecret", serP(S) || bigEndian32(k))`. -/
def specTweak (E : Env) (S : PublicKey) (k : Nat) : Nat :=
  fromBigEndian (E.TaggedHash TagBIP0352SharedSecret (SerializeCompressed S ++ bigEndian 4 k))

/-- The output key of the specification for the recipient `r` at position `k` of
its group: `TweakedSpendKey + t_k·G`, with the shared secret
`S = (a · inputHash mod n) · B_scan`. -/
def specOutputKey (E : Env) (outpoint : OutPoint) (a : Nat) (k : Nat) (r : Address) :
    PublicKey :=
  let S := E.ScalarMult ((a * specInputHash E outpoint a) % E.n) r.ScanKey
  E.AddNonConst (E.TweakedSpendKey r) (E.ScalarBaseMult (specTweak E S k))

/-- The scan keys of a list of addresses, each once, in the order in which they
first occur. -/
def distinctScanKeys : List Address → List PublicKey
  | [] => []
  | a :: rest => a.ScanKey :: (distinctScanKeys rest).filter (fun k => k ≠ a.ScanKey)

/-- The recipients listed group by group: the groups in the order in which their
scan keys first occur, each holding the addresses of its scan key in the order
of the list. -/
def specGroups (recipients : List Address) : List (List Address) :=
  (distinctScanKeys recipients).map (fun k => recipients.filter (fun r => r.ScanKey = k))

/-- All addresses of a group have the scan key of the first one. -/
def SameScanKey (g : List Address) : Prop :=
  ∀ f, g.head? = some f → ∀ r ∈ g, r.ScanKey = f.ScanKey

/-- The tweak `t_k` for the shared secret `S` and the position `k` is not a valid
tweak: the digest is at least the group order, or it is zero. -/
def InvalidTweak (E : Env) (S : PublicKey) (k : Nat) : Prop :=
  E.n ≤ specTweak E S k ∨ specTweak E S k = 0

instance (E : Env) (S : PublicKey) (k : Nat) : Decidable (InvalidTweak E S k) :=
  inferInstanceAs (Decidable (_ ∨ _))

/-- Some recipient of some group has a tweak that is not valid, the shared secret
of a group being `tweaked · B_scan` for the scan key of its first recipient. -/
def HasInvalidTweak (E : Env) (tweaked : Nat) (groups : List (List Address)) : Prop :=
  ∃ g ∈ groups, ∃ first, g.head? = some first ∧
    ∃ k, k < g.length ∧ InvalidTweak E (E.ScalarMult tweaked first.ScanKey) k

/-! ## The variant of the specification with the shared secret computed once per group -/

/-- The loop over the recipients of one group, given the shared secret of the
group instead of the scalar and the scan key. -/
def recipientLoopHoisted (E : Env) (sharedSecret : PublicKey) :
    Nat → List Address → List OutputWithAddress → Except Err (List OutputWithAddress)
  | _, [], results => Except.ok results
  | idx, recipient :: rest, results =>
    let recipientSendKey := E.TweakedSpendKey recipient
    let sharedSecretBytes := SerializeCompressed sharedSecret
    let k := idx % 2 ^ 32
    let t := E.TaggedHash TagBIP0352SharedSecret (outputPayload sharedSecretBytes k)
    let tScalar := ModNScalar.SetBytes E.n t
    if tScalar.2 then Except.error Err.hashOverflow
    else if ModNScalar.IsZero tScalar.1 then Except.error Err.hashZero
    else
      let sharedKey := E.AddNonConst recipientSendKey (E.ScalarBaseMult tScalar.1)
      recipientLoopHoisted E sharedSecret (idx + 1) rest
        (results ++ [⟨recipient, sharedKey⟩])

/-- The loop over the groups in the words of the specification: "for each group
with scan key `B_scan`: compute `S = a'·B_scan`", "computed once per distinct
scan key, not once per recipient". -/
def groupLoopHoisted (E : Env) (tweaked : Nat) :
    List (List Address) → List OutputWithAddress → Except Err (List OutputWithAddress)
  | [], results => Except.ok results
  | [] :: _, _ => Except.error Err.indexOutOfRange
  | (first :: others) :: groups, results =>
    let sharedSecret := E.ScalarMult tweaked first.ScanKey
    match recipientLoopHoisted E sharedSecret 0 (first :: others) results with
    | Except.error e => Except.error e
    | Except.ok results => groupLoopHoisted E tweaked groups results

/-- The variant of `CreateOutputs` that multiplies once per group. -/
def CreateOutputsHoisted (E : Env) (inputs : List Input) (recipients : List Address) :
    List Input × Except Err (List OutputWithAddress) :=
  if inputs.length = 0 then (inputs, Except.error Err.noInputs)
  else
    match sumLoop E 0 0 inputs with
    | Except.error e => (inputs, Except.error e)
    | Except.ok sumKey =>
      if ModNScalar.IsZero sumKey then (inputs, Except.error Err.sumZero)
      else
        let sorted := E.sortSort inputs
        match outpointL sorted with
        | none => (sorted, Except.error Err.indexOutOfRange)
        | some outpoint =>
          let tweaked := tweakedSumKey E outpoint sumKey
          (sorted, groupLoopHoisted E tweaked (GroupByScanKey recipients) [])

/-! ## A small instance

The curve `y² = x³ + 7` over the field with 13 elements has 7 points; the
instance below runs the same arithmetic on it, with a checksum for the hash. -/

namespace Toy

/-- The inverse of `a` modulo 13. -/
def inv (a : Nat) : Nat := a ^ 11 % 13

/-- The sum of two points of the small curve, `(0, 0)` being the point at infinity. -/
def add (P Q : PublicKey) : PublicKey :=
  if P = ⟨0, 0⟩ then Q
  else if Q = ⟨0, 0⟩ then P
  else if P.x = Q.x ∧ (P.y + Q.y) % 13 = 0 then ⟨0, 0⟩
  else
    let l := if P.x = Q.x then 3 * P.x * P.x * inv (2 * P.y) % 13
             else (Q.y + 13 - P.y) * inv (Q.x + 13 - P.x) % 13
    let x := (l * l + 26 - P.x - Q.x) % 13
    ⟨x, (l * (P.x + 13 - x) + 13 - P.y) % 13⟩

/-- The `k`-fold sum of a point. -/
def mulNat : Nat → PublicKey → PublicKey
  | 0, _ => ⟨0, 0⟩
  | k + 1, P => add (mulNat k P) P

/-- The multiple of a point by a scalar modulo 7. -/
def mul (k : Nat) (P : PublicKey) : PublicKey := mulNat (k % 7) P

/-- The generator `(7, 5)`. -/
def G : PublicKey := ⟨7, 5⟩

/-- A checksum in place of the tagged hash: 32 bytes holding a number below 9. -/
def hash (tag msg : Bytes) : Bytes :=
  bigEndian 32 ((tag ++ msg).foldl (fun acc b => (7 * acc + b) % 9) 0)

/-- The tag "TapTweak". -/
def TagTapTweak : Bytes := [84, 97, 112, 84, 119, 101, 97, 107]

/-- The taproot tweak of a private key: the key of the even public key plus the
hash of the X coordinate and the script root. -/
def tweak (privKey : Nat) (scriptRoot : Bytes) : Nat :=
  let pubKeyBytes := SerializeCompressed (mul privKey G)
  let key := if pubKeyBytes.head? = some PubKeyFormatCompressedOdd then
      ModNScalar.Negate 7 privKey else privKey
  ModNScalar.Add 7 key (ModNScalar.SetBytes 7 (hash TagTapTweak (pubKeyBytes.tail ++ scriptRoot))).1

/-- The standard script templates. -/
def parse (s : Bytes) : Option PkScript :=
  match s with
  | 118 :: 169 :: 20 :: rest =>
    if rest.length = 22 ∧ rest.drop 20 = [136, 172] then some ⟨ScriptClass.PubKeyHashTy, s⟩
    else none
  | 169 :: 20 :: rest =>
    if rest.length = 21 ∧ rest.drop 20 = [135] then some ⟨ScriptClass.ScriptHashTy, s⟩
    else none
  | 0 :: 20 :: rest =>
    if rest.length = 20 then some ⟨ScriptClass.WitnessV0PubKeyHashTy, s⟩ else none
  | 0 :: 32 :: rest =>
    if rest.length = 32 then some ⟨ScriptClass.WitnessV0ScriptHashTy, s⟩ else none
  | 81 :: 32 :: rest =>
    if rest.length = 32 then some ⟨ScriptClass.WitnessV1TaprootTy, s⟩ else none
  | _ => none

/-- An insertion sort by `lessInput`. -/
def sort (s : List Input) : List Input :=
  s.insertionSort (fun a b => lessInput b a = false)

/-- The instance. -/
def env : Env where
  n := 7
  p := 13
  ScalarBaseMult := fun k => mul k G
  ScalarMult := mul
  AddNonConst := add
  TaggedHash := hash
  TweakTaprootPrivKey := tweak
  ParsePkScript := parse
  TweakedSpendKey := fun a => a.SpendKey
  sortSort := sort

/-- A pay-to-witness-pubkey-hash script. -/
def p2wpkh : Bytes := 0 :: 20 :: List.replicate 20 1

/-- A pay-to-taproot script. -/
def p2tr : Bytes := 81 :: 32 :: List.replicate 32 1

/-- A pay-to-witness-script-hash script. -/
def p2wsh : Bytes := 0 :: 32 :: List.replicate 32 1

/-- A transaction id. -/
def txid : Bytes := List.replicate 32 7

/-- An input spending output `index` of `txid` with the given script and key. -/
def input (index : Nat) (script : Bytes) (key : Nat) : Input :=
  ⟨⟨txid, index⟩, ⟨0, script⟩, key⟩

/-- An address with scan key `scan·G` and spend key `spend·G`. -/
def addr (scan spend : Nat) : Address := ⟨mul scan G, mul spend G⟩

/-- Two inputs, the second a taproot input, listed with the larger outpoint
index first. -/
def inputsA : List Input := [input 1 p2wpkh 3, input 256 p2tr 4]

/-- Three recipients, the first and the third with the same scan key. -/
def recipientsA : List Address := [addr 1 2, addr 3 4, addr 1 5]

/-- The outputs of `CreateOutputs env inputsA recipientsA`. -/
def outputsA : List OutputWithAddress :=
  [⟨addr 1 2, ⟨7, 8⟩⟩, ⟨addr 1 5, ⟨11, 8⟩⟩, ⟨addr 3 4, ⟨11, 8⟩⟩]

/-- Three inputs, the one in the middle with a witness script hash script. -/
def inputsB : List Input := [input 2 p2wpkh 3, input 1 p2wsh 2, input 0 p2tr 5]

/-- Two inputs of one transaction, the one with the larger index first. -/
def inputsC : List Input := [input 1 p2wpkh 3, input 0 p2wpkh 1]

/-- Two inputs whose keys are `3` and `7 - 3`. -/
def inputsZ : List Input := [input 1 p2wpkh 3, input 0 p2wpkh 4]

/-- Five recipients; the fourth address with the scan key of the first one is at
position 3 of its group, where the tweak is the group order. -/
def recipientsD : List Address := [addr 1 2, addr 3 4, addr 1 5, addr 1 6, addr 1 1]

end Toy

end SilentPayments

/-!
# The block progress logger

A shallow embedding of `blockProgressLogger` of `netsync/blocklogger.go`. The
logger is the record of its three mutable fields and its progress action; a
call of `LogBlockHeight` is a function from the logger before the call to the
logger after it and the message it hands to the subsystem logger, if any. The
reading of the clock that the Go code takes with `time.Now()` is an argument.
Instants and durations are integers of nanoseconds; the arithmetic of `int64`
is written out with `wrapInt64`. The mutex makes the calls of one logger follow
one another, which is how they are composed here.
-/

namespace Netsync

/-- The value an `int64` holds when the exact result of an operation is `x`. -/
def wrapInt64 (x : Int) : Int :=
  (x + 9223372036854775808) % 18446744073709551616 - 9223372036854775808

/-- The constant `time.Millisecond`, in nanoseconds. -/
def Millisecond : Int := 1000000

/-- The constant `time.Second`, in nanoseconds. -/
def Second : Int := 1000000000

/-- The largest `time.Duration`. -/
def maxDuration : Int := 9223372036854775807

/-- The smallest `time.Duration`. -/
def minDuration : Int := -9223372036854775808

/-- The method `Time.Sub`: the duration `t - u`, and the largest or the smallest
duration if the difference cannot be stored in a duration. -/
def timeSub (t u : Int) : Int :=
  if maxDuration < t - u then maxDuration
  else if t - u < minDuration then minDuration
  else t - u

/-- The fields of `blockProgressLogger` (the subsystem logger is the second
component of what `LogBlockHeight` returns). -/
structure blockProgressLogger where
  receivedLogBlocks : Int
  receivedLogTx : Int
  lastBlockLogTime : Int
  progressAction : String
deriving DecidableEq, Repr

/-- What `LogBlockHeight` reads of its two arguments and of the clock. -/
structure LogCall where
  /-- The reading `time.Now()`. -/
  now : Int
  /-- The number `len(block.MsgBlock().Transactions)`. -/
  numTransactions : Nat
  /-- The value `block.Height()`. -/
  height : Int
  /-- The value `block.MsgBlock().Header.Timestamp`. -/
  timestamp : Int
  /-- The value `chain.CachedStateSize()`. -/
  cachedStateSize : Nat
deriving DecidableEq, Repr

/-- The arguments of the call of `Infof`, in their order. -/
structure LogMessage where
  progressAction : String
  receivedLogBlocks : Int
  blockStr : String
  tDuration : Int
  receivedLogTx : Int
  txStr : String
  height : Int
  timestamp : Int
  cacheSizeMiB : Nat
deriving DecidableEq, Repr

/-- newBlockProgressLogger returns a new block progress logger; `now` is the
reading of the clock at the construction. -/
def newBlockProgressLogger (progressMessage : String) (now : Int) : blockProgressLogger :=
  ⟨0, 0, now, progressMessage⟩

/-- LogBlockHeight logs a new block height as an information message to show
progress to the user. In order to prevent spam, it limits logging to one
message every 10 seconds with duration and totals included. -/
def LogBlockHeight (b : blockProgressLogger) (c : LogCall) :
    blockProgressLogger × Option LogMessage :=
  let receivedLogBlocks := wrapInt64 (b.receivedLogBlocks + 1)
  let receivedLogTx := wrapInt64 (b.receivedLogTx + wrapInt64 c.numTransactions)
  let now := c.now
  let duration := timeSub now b.lastBlockLogTime
  if duration < wrapInt64 (Second * 10) then
    (⟨receivedLogBlocks, receivedLogTx, b.lastBlockLogTime, b.progressAction⟩, none)
  else
    let durationMillis := Int.tdiv duration Millisecond
    let tDuration := wrapInt64 (wrapInt64 (10 * Millisecond) * Int.tdiv durationMillis 10)
    let blockStr := if receivedLogBlocks = 1 then "block" else "blocks"
    let txStr := if receivedLogTx = 1 then "transaction" else "transactions"
    let cacheSizeMiB := c.cachedStateSize / 1024 / 1024
    (⟨0, 0, now, b.progressAction⟩,
      some ⟨b.progressAction, receivedLogBlocks, blockStr, tDuration, receivedLogTx, txStr,
        c.height, c.timestamp, cacheSizeMiB⟩)

/-- The method `SetLastLogTime`. -/
def SetLastLogTime (b : blockProgressLogger) (time : Int) : blockProgressLogger :=
  ⟨b.receivedLogBlocks, b.receivedLogTx, time, b.progressAction⟩

/-- The calls of `LogBlockHeight` on one logger, one after the other: the logger
after the last call and what each call handed to the subsystem logger. -/
def runLog (b : blockProgressLogger) : List LogCall → blockProgressLogger × List (Option LogMessage)
  | [] => (b, [])
  | c :: rest =>
    let r := LogBlockHeight b c
    let rs := runLog r.1 rest
    (rs.1, r.2 :: rs.2)

/-- The number of transactions of a list of calls. -/
def totalTransactions (calls : List LogCall) : Nat :=
  (calls.map (fun c => c.numTransactions)).sum

/-- Three blocks within ten seconds of the construction at the instant 0. -/
def quietCalls : List LogCall :=
  [⟨1000000000, 5, 100, 0, 3145728⟩, ⟨4000000000, 1, 101, 0, 3145728⟩,
    ⟨9999999999, 7, 102, 0, 3145728⟩]

/-- A block at the instant 10123456789: more than ten seconds after the instant
0 and less than ten seconds after `constructionTime`. -/
def loudCall : LogCall := ⟨10123456789, 2, 103, 0, 3145728⟩

/-- The reading of the clock at a construction, five seconds after the instant 0. -/
def constructionTime : Int := 5000000000

/-- A block ten seconds and 123456789 nanoseconds after `constructionTime`. -/
def lateCall : LogCall := ⟨15123456789, 2, 104, 0, 3145728⟩

end Netsync

/-! ## Byte strings -/

namespace SilentPayments

theorem bytesCompare_self (a : Bytes) : bytesCompare a a = 0 := by
  induction a with
  | nil => rfl
  | cons x xs ih => simp [bytesCompare, ih]

theorem bytesCompare_values (a b : Bytes) :
    bytesCompare a b = -1 ∨ bytesCompare a b = 0 ∨ bytesCompare a b = 1 := by
  induction a generalizing b with
  | nil => cases b <;> simp [bytesCompare]
  | cons x xs ih =>
    cases b with
    | nil => simp [bytesCompare]
    | cons y ys =>
      simp only [bytesCompare]
      split_ifs
      · simp
      · simp
      · exact ih ys

theorem bytesCompare_flip (a b : Bytes) : bytesCompare b a = - bytesCompare a b := by
  induction a generalizing b with
  | nil => cases b <;> simp [bytesCompare]
  | cons x xs ih =>
    cases b with
    | nil => simp [bytesCompare]
    | cons y ys =>
      simp only [bytesCompare]
      split_ifs
      all_goals first
        | rfl
        | omega
        | exact ih ys

theorem bytesCompare_eq_zero {a b : Bytes} (h : bytesCompare a b = 0) : a = b := by
  induction a generalizing b with
  | nil => cases b <;> simp_all [bytesCompare]
  | cons x xs ih =>
    cases b with
    | nil => simp [bytesCompare] at h
    | cons y ys =>
      simp only [bytesCompare] at h
      split_ifs at h with h1 h2
      · simp at h
      · have hxy : x = y := by omega
        rw [hxy, ih h]

theorem bytesCompare_lt_trans {a b c : Bytes} (hab : bytesCompare a b = -1)
    (hbc : bytesCompare b c = -1) : bytesCompare a c = -1 := by
  induction a generalizing b c with
  | nil =>
    cases c with
    | nil => cases b <;> simp [bytesCompare] at hab hbc
    | cons z zs => simp [bytesCompare]
  | cons x xs ih =>
    cases b with
    | nil => simp [bytesCompare] at hab
    | cons y ys =>
      cases c with
      | nil => simp [bytesCompare] at hbc
      | cons z zs =>
        simp only [bytesCompare] at hab hbc ⊢
        split_ifs at hab hbc ⊢ with h1 h2 h3 h4 h5 h6 h7 h8
        all_goals first
          | rfl
          | omega
          | exact ih hab hbc

/-- Two byte strings neither of which compares above the other are equal. -/
theorem bytesCompare_antisymm {a b : Bytes} (hab : bytesCompare a b ≠ 1)
    (hba : bytesCompare b a ≠ 1) : a = b := by
  apply bytesCompare_eq_zero
  have hflip := bytesCompare_flip a b
  rcases bytesCompare_values a b with h | h | h
  · rw [h] at hflip; exact absurd hflip hba
  · exact h
  · exact absurd h hab

theorem bytesCompare_le_trans {a b c : Bytes} (hab : bytesCompare a b ≠ 1)
    (hbc : bytesCompare b c ≠ 1) : bytesCompare a c ≠ 1 := by
  rcases bytesCompare_values a b with h1 | h1 | h1
  · rcases bytesCompare_values b c with h2 | h2 | h2
    · rw [bytesCompare_lt_trans h1 h2]; decide
    · rw [← bytesCompare_eq_zero h2, h1]; decide
    · exact absurd h2 hbc
  · rw [bytesCompare_eq_zero h1]; exact hbc
  · exact absurd h1 hab

/-- An input is not `Less` than another exactly when the other's serialised
outpoint does not compare above its own. -/
theorem lessInput_eq_false (a b : Input) :
    lessInput a b = false ↔
      bytesCompare (serializeOutpoint b.OutPoint) (serializeOutpoint a.OutPoint) ≠ 1 := by
  unfold lessInput
  rw [bytesCompare_flip (serializeOutpoint a.OutPoint) (serializeOutpoint b.OutPoint)]
  simp only [beq_eq_false_iff_ne, ne_eq]
  constructor
  · intro h h1; apply h; omega
  · intro h h1; apply h; omega

theorem bigEndian_length (len v : Nat) : (bigEndian len v).length = len := by
  induction len generalizing v with
  | zero => rfl
  | succ m ih => simp [bigEndian, ih]

theorem bigEndian_mod (len v : Nat) : bigEndian len (v % 256 ^ len) = bigEndian len v := by
  induction len generalizing v with
  | zero => rfl
  | succ m ih =>
    simp only [bigEndian]
    have h1 : v % 256 ^ (m + 1) / 256 = (v / 256) % 256 ^ m := by
      rw [pow_succ, Nat.mul_comm, Nat.mod_mul_right_div_self]
    have h2 : v % 256 ^ (m + 1) % 256 = v % 256 := by
      rw [pow_succ, Nat.mul_comm]
      exact Nat.mod_mul_right_mod v 256 (256 ^ m)
    rw [h1, h2, ih]

theorem SerializeCompressed_length (k : PublicKey) :
    (SerializeCompressed k).length = 33 := by
  simp [SerializeCompressed, bigEndian_length]

/-- With a compressed key in front, the payload is the key followed by the four
big-endian bytes of `k`. -/
theorem outputPayload_eq (key : PublicKey) (k : Nat) :
    outputPayload (SerializeCompressed key) k = SerializeCompressed key ++ bigEndian 4 k := by
  have hlen := SerializeCompressed_length key
  unfold outputPayload
  simp only [List.length_replicate, hlen, pubKeyLength]
  have hmin : min 33 (33 + 4) = 33 := by decide
  rw [hmin]
  rw [List.take_left' (by rw [List.take_of_length_le (by omega)]; exact hlen)]
  rw [List.take_of_length_le (by omega)]

/-! ## The summing loop -/

theorem InputCompatible_of_compatible (E : Env) (i : Input) (h : Compatible E i) :
    InputCompatible E i.Utxo.PkScript =
      (true, (InputCompatible E i.Utxo.PkScript).2.1, none) := by
  obtain ⟨h1, h2⟩ := h
  rw [← h1, ← h2]

theorem SerializeCompressed_head_odd (k : PublicKey) :
    (SerializeCompressed k).head? = some PubKeyFormatCompressedOdd ↔ k.y % 2 = 1 := by
  unfold SerializeCompressed
  by_cases h : k.y % 2 = 1
  · simp [h]
  · simp [h, PubKeyFormatCompressedOdd, PubKeyFormatCompressedEven]

/-- The key the loop adds is the corrected scalar of the specification. -/
theorem correctedKey_eq_specCorrected (E : Env) (i : Input) :
    correctedKey E (classOf E i) i.PrivKey = specCorrected E i := by
  unfold correctedKey specCorrected
  by_cases hc : classOf E i = ScriptClass.WitnessV1TaprootTy
  · simp only [hc, if_true, SerializeCompressed_head_odd, ModNScalar.Negate]
  · simp only [hc, if_false]

theorem sumLoop_cons_compatible (E : Env) (idx acc : Nat) (i : Input) (rest : List Input)
    (h : Compatible E i) :
    sumLoop E idx acc (i :: rest) =
      sumLoop E (idx + 1)
        (ModNScalar.Add E.n acc (correctedKey E (classOf E i) i.PrivKey)) rest := by
  rw [sumLoop, InputCompatible_of_compatible E i h]
  simp [classOf]

/-- On compatible inputs the loop returns the sum of the corrected scalars,
reduced modulo the group order. -/
theorem sumLoop_compatible (E : Env) (idx acc : Nat) (inputs : List Input)
    (h : ∀ i ∈ inputs, Compatible E i) :
    sumLoop E idx acc inputs =
      Except.ok (if inputs = [] then acc else (acc + specSum E inputs) % E.n) := by
  induction inputs generalizing idx acc with
  | nil => simp [sumLoop]
  | cons i rest ih =>
    rw [sumLoop_cons_compatible E idx acc i rest (h i (List.mem_cons_self i rest))]
    rw [ih (idx + 1) _ (fun j hj => h j (List.mem_cons_of_mem i hj))]
    rw [correctedKey_eq_specCorrected]
    simp only [ModNScalar.Add, specSum, List.map_cons, List.sum_cons, reduceCtorEq, if_false]
    by_cases hr : rest = []
    · simp [hr]
    · simp only [hr, if_false]
      rw [Nat.add_mod, Nat.mod_mod, ← Nat.add_mod, Nat.add_assoc]

/-- The loop stops at the first input whose script parses to a class that is not
compatible, with the index of that input. -/
theorem sumLoop_incompatible (E : Env) (idx acc : Nat) (pre : List Input) (x : Input)
    (post : List Input) (hpre : ∀ i ∈ pre, Compatible E i)
    (hx1 : (InputCompatible E x.Utxo.PkScript).1 = false)
    (hx2 : (InputCompatible E x.Utxo.PkScript).2.2 = none) :
    sumLoop E idx acc (pre ++ x :: post) =
      Except.error (Err.incompatible (idx + pre.length) (classOf E x)) := by
  induction pre generalizing idx acc with
  | nil =>
    have hx : InputCompatible E x.Utxo.PkScript =
        (false, (InputCompatible E x.Utxo.PkScript).2.1, none) := by
      rw [← hx1, ← hx2]
    rw [List.nil_append, sumLoop, hx]
    simp [classOf]
  | cons i rest ih =>
    rw [List.cons_append,
      sumLoop_cons_compatible E idx acc i _ (hpre i (List.mem_cons_self i rest)),
      ih (idx + 1) _ (fun j hj => hpre j (List.mem_cons_of_mem i hj))]
    simp only [List.length_cons]
    have : idx + 1 + rest.length = idx + (rest.length + 1) := by omega
    rw [this]

/-! ## The loops over the recipients -/

theorem SetBytes_fst_of_no_overflow (n : Nat) (b : Bytes)
    (h : (ModNScalar.SetBytes n b).2 = false) :
    (ModNScalar.SetBytes n b).1 = fromBigEndian b := by
  simp only [ModNScalar.SetBytes, decide_eq_false_iff_not, not_le] at h ⊢
  exact Nat.mod_eq_of_lt h

/-- The output the inner loop appends for the recipient at position `k`. -/
theorem recipientLoop_step (E : Env) (tweaked : Nat) (scanPubKey : PublicKey) (idx : Nat)
    (r : Address) (rest : List Address) (results : List OutputWithAddress) :
    recipientLoop E tweaked scanPubKey idx (r :: rest) results =
      if fromBigEndian (E.TaggedHash TagBIP0352SharedSecret
          (SerializeCompressed (E.ScalarMult tweaked scanPubKey) ++ bigEndian 4 idx)) ≥ E.n
      then Except.error Err.hashOverflow
      else if specTweak E (E.ScalarMult tweaked scanPubKey) idx = 0
      then Except.error Err.hashZero
      else recipientLoop E tweaked scanPubKey (idx + 1) rest
        (results ++ [⟨r, E.AddNonConst (E.TweakedSpendKey r)
          (E.ScalarBaseMult (specTweak E (E.ScalarMult tweaked scanPubKey) idx))⟩]) := by
  have hk : bigEndian 4 (idx % 2 ^ 32) = bigEndian 4 idx := bigEndian_mod 4 idx
  rw [recipientLoop]
  simp only [outputPayload_eq, hk, ModNScalar.SetBytes, ModNScalar.IsZero, specTweak,
    decide_eq_true_eq, beq_iff_eq, ge_iff_le]
  split_ifs with h1 h2 h3 h3
  · rfl
  · rfl
  · rw [Nat.mod_eq_of_lt (not_le.mp h1)] at h2; exact absurd h2 h3
  · rw [Nat.mod_eq_of_lt (not_le.mp h1)] at h2; exact absurd h3 h2
  · rw [Nat.mod_eq_of_lt (not_le.mp h1)]

theorem recipientLoop_ok (E : Env) (tweaked : Nat) (scanPubKey : PublicKey) (idx : Nat)
    (g : List Address) (results out : List OutputWithAddress)
    (h : recipientLoop E tweaked scanPubKey idx g results = Except.ok out) :
    out = results ++ (g.enumFrom idx).map (fun kr =>
      ⟨kr.2, E.AddNonConst (E.TweakedSpendKey kr.2)
        (E.ScalarBaseMult (specTweak E (E.ScalarMult tweaked scanPubKey) kr.1))⟩) := by
  induction g generalizing idx results with
  | nil =>
    simp only [recipientLoop, Except.ok.injEq] at h
    simp [h]
  | cons r rest ih =>
    rw [recipientLoop_step] at h
    split_ifs at h with h1 h2
    rw [ih (idx + 1) _ h]
    simp

theorem recipientLoop_error (E : Env) (tweaked : Nat) (scanPubKey : PublicKey) (idx : Nat)
    (g : List Address) (results : List OutputWithAddress) (e : Err)
    (h : recipientLoop E tweaked scanPubKey idx g results = Except.error e) :
    e = Err.hashOverflow ∨ e = Err.hashZero := by
  induction g generalizing idx results with
  | nil => simp [recipientLoop] at h
  | cons r rest ih =>
    rw [recipientLoop_step] at h
    split_ifs at h with h1 h2
    · left; injection h with h; exact h.symm
    · right; injection h with h; exact h.symm
    · exact ih (idx + 1) _ h

theorem groupLoop_ok (E : Env) (tweaked : Nat) (groups : List (List Address))
    (results out : List OutputWithAddress) (hsame : ∀ g ∈ groups, SameScanKey g)
    (h : groupLoop E tweaked groups results = Except.ok out) :
    out = results ++ groups.flatMap (fun g => g.enum.map (fun kr =>
      ⟨kr.2, E.AddNonConst (E.TweakedSpendKey kr.2)
        (E.ScalarBaseMult (specTweak E (E.ScalarMult tweaked kr.2.ScanKey) kr.1))⟩)) := by
  induction groups generalizing results with
  | nil =>
    simp only [groupLoop, Except.ok.injEq] at h
    simp [h]
  | cons g groups ih =>
    cases g with
    | nil => simp [groupLoop] at h
    | cons first others =>
      rw [groupLoop] at h
      cases hr : recipientLoop E tweaked first.ScanKey 0 (first :: others) results with
      | error e => rw [hr] at h; simp at h
      | ok mid =>
        rw [hr] at h
        simp only at h
        rw [ih mid (fun g hg => hsame g (List.mem_cons_of_mem _ hg)) h,
          recipientLoop_ok E tweaked first.ScanKey 0 _ results mid hr]
        rw [List.flatMap_cons, List.append_assoc, List.enum_eq_enumFrom]
        congr 2
        apply List.map_congr_left
        intro kr hkr
        have hmem := List.snd_mem_of_mem_enumFrom hkr
        rw [hsame (first :: others) (List.mem_cons_self _ _) first rfl kr.2 hmem]

theorem groupLoop_error (E : Env) (tweaked : Nat) (groups : List (List Address))
    (results : List OutputWithAddress) (e : Err)
    (h : groupLoop E tweaked groups results = Except.error e) :
    e = Err.hashOverflow ∨ e = Err.hashZero ∨ e = Err.indexOutOfRange := by
  induction groups generalizing results with
  | nil => simp [groupLoop] at h
  | cons g groups ih =>
    cases g with
    | nil =>
      simp only [groupLoop, Except.error.injEq] at h
      right; right; exact h.symm
    | cons first others =>
      rw [groupLoop] at h
      cases hr : recipientLoop E tweaked first.ScanKey 0 (first :: others) results with
      | error e2 =>
        rw [hr] at h
        simp only [Except.error.injEq] at h
        rcases recipientLoop_error E tweaked first.ScanKey 0 _ results e2 hr with h1 | h1
        · left; rw [← h, h1]
        · right; left; rw [← h, h1]
      | ok mid =>
        rw [hr] at h
        exact ih mid h

/-! ## Grouping by scan key -/

theorem mem_distinctScanKeys (rs : List Address) (k : PublicKey) :
    k ∈ distinctScanKeys rs ↔ ∃ r ∈ rs, r.ScanKey = k := by
  induction rs with
  | nil => simp [distinctScanKeys]
  | cons a rest ih =>
    simp only [distinctScanKeys, List.mem_cons, List.mem_filter, ih, decide_eq_true_eq]
    constructor
    · rintro (h | ⟨⟨r, hr, hk⟩, _⟩)
      · exact ⟨a, Or.inl rfl, h.symm⟩
      · exact ⟨r, Or.inr hr, hk⟩
    · rintro ⟨r, hr | hr, hk⟩
      · left; rw [← hk, hr]
      · by_cases hka : k = a.ScanKey
        · left; exact hka
        · right; exact ⟨⟨r, hr, hk⟩, hka⟩

theorem nodup_distinctScanKeys (rs : List Address) : (distinctScanKeys rs).Nodup := by
  induction rs with
  | nil => simp [distinctScanKeys]
  | cons a rest ih =>
    simp only [distinctScanKeys, List.nodup_cons, List.mem_filter, decide_eq_true_eq]
    exact ⟨fun h => h.2 rfl, ih.filter _⟩

theorem distinctScanKeys_concat (rs : List Address) (a : Address) :
    distinctScanKeys (rs ++ [a]) =
      if a.ScanKey ∈ distinctScanKeys rs then distinctScanKeys rs
      else distinctScanKeys rs ++ [a.ScanKey] := by
  induction rs with
  | nil => simp [distinctScanKeys]
  | cons b rest ih =>
    have e1 : distinctScanKeys (b :: rest ++ [a]) =
        b.ScanKey :: (distinctScanKeys (rest ++ [a])).filter (fun k => k ≠ b.ScanKey) := rfl
    have e2 : distinctScanKeys (b :: rest) =
        b.ScanKey :: (distinctScanKeys rest).filter (fun k => k ≠ b.ScanKey) := rfl
    rw [e1, e2, ih]
    by_cases hab : a.ScanKey = b.ScanKey
    · rw [hab]
      by_cases h1 : b.ScanKey ∈ distinctScanKeys rest
      · simp [h1]
      · simp [h1, List.filter_append]
    · by_cases h1 : a.ScanKey ∈ distinctScanKeys rest
      · simp [h1, hab]
      · simp [h1, hab, List.filter_append]

theorem head_filter_scanKey (pre : List Address) (k : PublicKey)
    (h : ∃ r ∈ pre, r.ScanKey = k) :
    (pre.filter (fun r => r.ScanKey = k)).head?.map (fun b => b.ScanKey) = some k := by
  induction pre with
  | nil => simp at h
  | cons b rest ih =>
    by_cases hb : b.ScanKey = k
    · simp [List.filter_cons, hb]
    · have hrest : ∃ r ∈ rest, r.ScanKey = k := by
        obtain ⟨r, hr, hk⟩ := h
        rcases List.mem_cons.mp hr with h1 | h1
        · rw [h1] at hk; exact absurd hk hb
        · exact ⟨r, h1, hk⟩
      simp only [List.filter_cons, hb, decide_False, Bool.false_eq_true, if_false]
      exact ih hrest

/-- Inserting an address into the groups of the addresses before it gives the
groups of the longer list. -/
theorem insertByScanKey_map_filter (a : Address) (pre : List Address) (ks : List PublicKey)
    (hnodup : ks.Nodup) (hmem : ∀ k ∈ ks, ∃ r ∈ pre, r.ScanKey = k)
    (hnew : a.ScanKey ∉ ks → ∀ r ∈ pre, r.ScanKey ≠ a.ScanKey) :
    insertByScanKey a (ks.map (fun k => pre.filter (fun r => r.ScanKey = k))) =
      (if a.ScanKey ∈ ks then ks else ks ++ [a.ScanKey]).map
        (fun k => (pre ++ [a]).filter (fun r => r.ScanKey = k)) := by
  induction ks with
  | nil =>
    have hnone : pre.filter (fun r => r.ScanKey = a.ScanKey) = [] := by
      rw [List.filter_eq_nil_iff]
      intro r hr
      simpa using hnew (List.not_mem_nil _) r hr
    simp [insertByScanKey, List.filter_append, hnone]
  | cons k ks ih =>
    have hk := head_filter_scanKey pre k (hmem k (List.mem_cons_self k ks))
    obtain ⟨hk_notin, hnodup2⟩ := List.nodup_cons.mp hnodup
    simp only [List.map_cons, insertByScanKey, hk, Option.some.injEq]
    by_cases hka : k = a.ScanKey
    · subst hka
      have hin : a.ScanKey ∈ a.ScanKey :: ks := List.mem_cons_self _ _
      rw [if_pos rfl, if_pos hin, List.map_cons]
      congr 1
      · simp [List.filter_append]
      · apply List.map_congr_left
        intro k2 hk2
        have hne : a.ScanKey ≠ k2 := by
          intro h; rw [← h] at hk2; exact hk_notin hk2
        simp [List.filter_append, hne]
    · have hak : a.ScanKey ≠ k := fun h => hka h.symm
      have hiff : a.ScanKey ∈ k :: ks ↔ a.ScanKey ∈ ks := by
        simp [List.mem_cons, hak]
      rw [if_neg hka, ih hnodup2 (fun k2 hk2 => hmem k2 (List.mem_cons_of_mem _ hk2))
        (fun hnot => hnew (fun hin => hnot (hiff.mp hin)))]
      by_cases hin : a.ScanKey ∈ ks
      · simp [hin, hak, List.filter_append]
      · simp [hin, hak, List.filter_append]

theorem GroupByScanKey_concat (rs : List Address) (a : Address) :
    GroupByScanKey (rs ++ [a]) = insertByScanKey a (GroupByScanKey rs) := by
  simp [GroupByScanKey, List.foldl_append]

/-- The groups are those of the specification: in the order in which the scan
keys first occur, each with the addresses of its key in the order of the list. -/
theorem GroupByScanKey_eq_specGroups (rs : List Address) :
    GroupByScanKey rs = specGroups rs := by
  induction rs using List.reverseRecOn with
  | nil => rfl
  | append_singleton rs a ih =>
    rw [GroupByScanKey_concat, ih]
    unfold specGroups
    rw [insertByScanKey_map_filter a rs (distinctScanKeys rs) (nodup_distinctScanKeys rs)
      (fun k hk => (mem_distinctScanKeys rs k).mp hk)
      (fun hnot r hr heq => hnot ((mem_distinctScanKeys rs _).mpr ⟨r, hr, heq⟩)),
      distinctScanKeys_concat]

theorem GroupByScanKey_sameScanKey (rs : List Address) :
    ∀ g ∈ GroupByScanKey rs, SameScanKey g := by
  intro g hg
  rw [GroupByScanKey_eq_specGroups] at hg
  obtain ⟨k, _, rfl⟩ := List.mem_map.mp hg
  intro f hf r hr
  have hfk : f.ScanKey = k := by
    have := List.mem_of_mem_head? hf
    simpa using (List.mem_filter.mp this).2
  have hrk : r.ScanKey = k := by simpa using (List.mem_filter.mp hr).2
  rw [hfk, hrk]

theorem flatten_insertByScanKey_length (a : Address) (gs : List (List Address)) :
    (insertByScanKey a gs).flatten.length = gs.flatten.length + 1 := by
  induction gs with
  | nil => simp [insertByScanKey]
  | cons g gs ih =>
    simp only [insertByScanKey]
    split_ifs
    · simp only [List.flatten_cons, List.length_append, List.length_singleton]; omega
    · simp only [List.flatten_cons, List.length_append, ih]; omega

/-- No address is lost or added by the grouping. -/
theorem GroupByScanKey_flatten_length (rs : List Address) :
    (GroupByScanKey rs).flatten.length = rs.length := by
  induction rs using List.reverseRecOn with
  | nil => rfl
  | append_singleton rs a ih =>
    rw [GroupByScanKey_concat, flatten_insertByScanKey_length, ih]
    simp

/-! ## The sort -/

theorem littleEndian_mod (len v : Nat) :
    littleEndian len (v % 256 ^ len) = littleEndian len v := by
  induction len generalizing v with
  | zero => rfl
  | succ m ih =>
    simp only [littleEndian]
    have h1 : v % 256 ^ (m + 1) / 256 = (v / 256) % 256 ^ m := by
      rw [pow_succ, Nat.mul_comm, Nat.mod_mul_right_div_self]
    have h2 : v % 256 ^ (m + 1) % 256 = v % 256 := by
      rw [pow_succ, Nat.mul_comm]
      exact Nat.mod_mul_right_mod v 256 (256 ^ m)
    rw [h1, h2, ih]

theorem serializeOutpoint_eq (op : OutPoint) :
    serializeOutpoint op = op.Hash ++ littleEndian 4 op.Index := by
  unfold serializeOutpoint WriteOutPoint
  rw [show (2 : Nat) ^ 32 = 256 ^ 4 by norm_num, littleEndian_mod]

/-- After a sort that keeps its promise, a non-empty slice has a first element. -/
theorem sort_head_exists (sort : List Input → List Input) (hsort : SortSpec sort)
    (s : List Input) (hne : s ≠ []) : ∃ h, (sort s).head? = some h := by
  cases hs : sort s with
  | nil =>
    have hperm := (hsort s).1
    rw [hs] at hperm
    exact absurd hperm.symm.eq_nil hne
  | cons h t => exact ⟨h, rfl⟩

/-- After a sort that keeps its promise, the first element is an element of the
slice, and its serialised outpoint compares above that of no element. -/
theorem sort_head_least (sort : List Input → List Input) (hsort : SortSpec sort)
    (s : List Input) (h : Input) (hh : (sort s).head? = some h) :
    h ∈ s ∧ ∀ x ∈ s,
      bytesCompare (serializeOutpoint h.OutPoint) (serializeOutpoint x.OutPoint) ≠ 1 := by
  obtain ⟨hperm, hless⟩ := hsort s
  refine ⟨hperm.subset (List.mem_of_mem_head? hh), ?_⟩
  intro x hx
  have hx2 : x ∈ sort s := hperm.symm.subset hx
  obtain ⟨j, hj, hjx⟩ := List.getElem_of_mem hx2
  have h0 : (sort s)[0]? = some h := by rw [← List.head?_eq_getElem?]; exact hh
  have hjx2 : (sort s)[j]? = some x := by rw [List.getElem?_eq_getElem hj, hjx]
  rcases Nat.eq_zero_or_pos j with hj0 | hjpos
  · subst hj0
    rw [h0] at hjx2
    injection hjx2 with hjx2
    rw [hjx2, bytesCompare_self]
    decide
  · have hl := hless 0 j hjpos hj
    simp only [sortableInputSlice.Less, hjx2, h0] at hl
    exact (lessInput_eq_false x h).mp hl

/-- The insertion sort of the small instance keeps the promise of the sort. -/
theorem Toy.sort_spec : SortSpec Toy.sort := by
  intro s
  haveI : IsTotal Input (fun a b => lessInput b a = false) := ⟨by
    intro a b
    rw [lessInput_eq_false, lessInput_eq_false]
    have hflip := bytesCompare_flip (serializeOutpoint a.OutPoint) (serializeOutpoint b.OutPoint)
    rcases bytesCompare_values (serializeOutpoint a.OutPoint) (serializeOutpoint b.OutPoint)
      with h | h | h
    · left; rw [h]; decide
    · left; rw [h]; decide
    · right; rw [hflip, h]; decide⟩
  haveI : IsTrans Input (fun a b => lessInput b a = false) := ⟨by
    intro a b c hab hbc
    rw [lessInput_eq_false] at hab hbc ⊢
    exact bytesCompare_le_trans hab hbc⟩
  refine ⟨List.perm_insertionSort _ s, ?_⟩
  intro i j hij hj
  have hsorted := List.sorted_insertionSort (fun a b => lessInput b a = false) s
  have hi : i < (Toy.sort s).length := lt_trans hij hj
  have hpw := (List.pairwise_iff_getElem.mp hsorted) i j hi hj hij
  simp only [sortableInputSlice.Less, List.getElem?_eq_getElem hj, List.getElem?_eq_getElem hi]
  exact hpw

/-! ## The paths through `CreateOutputs` -/

theorem CreateOutputs_nil (E : Env) (recipients : List Address) :
    CreateOutputs E [] recipients = ([], Except.error Err.noInputs) := by
  simp [CreateOutputs]

theorem CreateOutputs_sum_error (E : Env) (inputs : List Input) (recipients : List Address)
    (e : Err) (hne : inputs ≠ []) (h : sumLoop E 0 0 inputs = Except.error e) :
    CreateOutputs E inputs recipients = (inputs, Except.error e) := by
  have hlen : ¬ inputs.length = 0 := fun h0 => hne (List.length_eq_zero.mp h0)
  simp only [CreateOutputs, hlen, if_false, h]

theorem CreateOutputs_sum_ok (E : Env) (inputs : List Input) (recipients : List Address)
    (a : Nat) (hne : inputs ≠ []) (h : sumLoop E 0 0 inputs = Except.ok a) :
    CreateOutputs E inputs recipients =
      if a = 0 then (inputs, Except.error Err.sumZero)
      else match outpointL (E.sortSort inputs) with
        | none => (E.sortSort inputs, Except.error Err.indexOutOfRange)
        | some outpoint =>
          (E.sortSort inputs,
            groupLoop E (tweakedSumKey E outpoint a) (GroupByScanKey recipients) []) := by
  have hlen : ¬ inputs.length = 0 := fun h0 => hne (List.length_eq_zero.mp h0)
  simp only [CreateOutputs, hlen, if_false, h, ModNScalar.IsZero, beq_iff_eq]

theorem tweakedSumKey_eq (E : Env) (outpoint : OutPoint) (a : Nat) :
    tweakedSumKey E outpoint a = (a * specInputHash E outpoint a) % E.n := by
  simp only [tweakedSumKey, ModNScalar.Mul, ModNScalar.SetBytes, inputHash, inputPayload,
    specInputHash, serializeOutpoint, Nat.mul_mod_mod]

theorem sumLoop_of_compatible (E : Env) (inputs : List Input) (hne : inputs ≠ [])
    (hcompat : ∀ i ∈ inputs, Compatible E i) :
    sumLoop E 0 0 inputs = Except.ok (specSum E inputs % E.n) := by
  rw [sumLoop_compatible E 0 0 inputs hcompat]
  simp [hne]

/-- A successful call went through the whole function. -/
theorem CreateOutputs_ok_elim (E : Env) (inputs : List Input) (recipients : List Address)
    (results : List OutputWithAddress)
    (hok : (CreateOutputs E inputs recipients).2 = Except.ok results) :
    ∃ a outpoint, inputs ≠ [] ∧ sumLoop E 0 0 inputs = Except.ok a ∧ a ≠ 0 ∧
      outpointL (E.sortSort inputs) = some outpoint ∧
      groupLoop E (tweakedSumKey E outpoint a) (GroupByScanKey recipients) [] =
        Except.ok results := by
  by_cases hne : inputs = []
  · rw [hne, CreateOutputs_nil] at hok
    simp at hok
  · cases hsum : sumLoop E 0 0 inputs with
    | error e =>
      rw [CreateOutputs_sum_error E inputs recipients e hne hsum] at hok
      simp at hok
    | ok a =>
      rw [CreateOutputs_sum_ok E inputs recipients a hne hsum] at hok
      by_cases ha : a = 0
      · rw [if_pos ha] at hok
        simp at hok
      · rw [if_neg ha] at hok
        cases hop : outpointL (E.sortSort inputs) with
        | none => rw [hop] at hok; simp at hok
        | some outpoint =>
          rw [hop] at hok
          exact ⟨a, outpoint, hne, rfl, ha, rfl, hok⟩

/-- The addresses of the outputs of the outer loop, in order. -/
theorem groupLoop_addresses (E : Env) (tweaked : Nat) (recipients : List Address)
    (results : List OutputWithAddress)
    (h : groupLoop E tweaked (GroupByScanKey recipients) [] = Except.ok results) :
    results.map (fun o => o.Address) = (GroupByScanKey recipients).flatten := by
  rw [groupLoop_ok E tweaked _ [] results (GroupByScanKey_sameScanKey recipients) h]
  rw [List.nil_append]
  generalize GroupByScanKey recipients = groups
  induction groups with
  | nil => rfl
  | cons g groups ih =>
    rw [List.flatMap_cons, List.map_append, ih, List.flatten_cons, List.map_map]
    congr 1
    exact List.enum_map_snd g

/-! ## The claims -/

/-- Claim C1. For a non-empty list of compatible inputs, when `CreateOutputs`
succeeds the corrected scalars sum to some `a ≠ 0 (mod n)` and the outputs are,
group by group and inside each group at the positions `k = 0, 1, ...`, the
recipient's address with the key `TweakedSpendKey + t_k·G`, where
`t_k = TaggedHash("BIP0352/SharedSecret", serP((a · inputHash mod n) · B_scan) || bigEndian32(k))`
and `inputHash = TaggedHash("BIP0352/Inputs", outpointL || serP(a·G))`; the position
restarts at 0 in each group. -/
theorem CreateOutputs_output_keys (E : Env) (inputs : List Input)
    (recipients : List Address) (results : List OutputWithAddress)
    (hne : inputs ≠ []) (hcompat : ∀ i ∈ inputs, Compatible E i)
    (hok : (CreateOutputs E inputs recipients).2 = Except.ok results) :
    specSum E inputs % E.n ≠ 0 ∧
    ∃ outpoint, outpointL (E.sortSort inputs) = some outpoint ∧
      results = (GroupByScanKey recipients).flatMap (fun g =>
        g.enum.map (fun kr =>
          ⟨kr.2, specOutputKey E outpoint (specSum E inputs % E.n) kr.1 kr.2⟩)) := by
  obtain ⟨a, outpoint, _, hsum, hnz, hop, hloop⟩ :=
    CreateOutputs_ok_elim E inputs recipients results hok
  rw [sumLoop_of_compatible E inputs hne hcompat] at hsum
  injection hsum with hsum
  subst hsum
  refine ⟨hnz, outpoint, hop, ?_⟩
  rw [groupLoop_ok E _ _ [] results (GroupByScanKey_sameScanKey recipients) hloop]
  simp only [List.nil_append, specOutputKey, tweakedSumKey_eq]

set_option maxRecDepth 100000 in
/-- Claim C1 on the small instance: two inputs, three recipients in two groups. -/
theorem CreateOutputs_output_keys_witness :
    specSum Toy.env Toy.inputsA % Toy.env.n ≠ 0 ∧
    ∃ outpoint, outpointL (Toy.env.sortSort Toy.inputsA) = some outpoint ∧
      Toy.outputsA = (GroupByScanKey Toy.recipientsA).flatMap (fun g =>
        g.enum.map (fun kr =>
          ⟨kr.2, specOutputKey Toy.env outpoint (specSum Toy.env Toy.inputsA % Toy.env.n)
            kr.1 kr.2⟩)) :=
  CreateOutputs_output_keys Toy.env Toy.inputsA Toy.recipientsA Toy.outputsA
    (by decide) (by decide) (by decide)

/-- Claim C2. If the input at index `i` has a script that parses to a class that
is not compatible and every other input is compatible, `CreateOutputs` returns
the error that names index `i` and no outputs, whatever the keys, the
recipients and the position `i` are. -/
theorem CreateOutputs_rejects_incompatible (E : Env) (inputs : List Input)
    (recipients : List Address) (i : Nat) (x : Input)
    (hx : inputs[i]? = some x)
    (hparse : (InputCompatible E x.Utxo.PkScript).2.2 = none)
    (hincompat : (InputCompatible E x.Utxo.PkScript).1 = false)
    (hothers : ∀ j y, j ≠ i → inputs[j]? = some y → Compatible E y) :
    (CreateOutputs E inputs recipients).2 =
      Except.error (Err.incompatible i (classOf E x)) := by
  obtain ⟨hi, hxi⟩ := List.getElem?_eq_some_iff.mp hx
  have hsplit : inputs = inputs.take i ++ x :: inputs.drop (i + 1) := by
    rw [← hxi, ← List.drop_eq_getElem_cons hi, List.take_append_drop]
  have hne : inputs ≠ [] := by
    intro h; rw [h] at hi; exact absurd hi (Nat.not_lt_zero i)
  have hpre : ∀ y ∈ inputs.take i, Compatible E y := by
    intro y hy
    obtain ⟨j, hj, hjy⟩ := List.getElem_of_mem hy
    rw [List.length_take] at hj
    have hji : j < i := lt_of_lt_of_le hj (min_le_left _ _)
    refine hothers j y (Nat.ne_of_lt hji) ?_
    rw [List.getElem_take] at hjy
    rw [List.getElem?_eq_getElem (lt_of_lt_of_le hj (min_le_right _ _)), hjy]
  have hsum := sumLoop_incompatible E 0 0 (inputs.take i) x (inputs.drop (i + 1)) hpre
    hincompat hparse
  rw [← hsplit, List.length_take, Nat.min_eq_left (Nat.le_of_lt hi), Nat.zero_add] at hsum
  rw [CreateOutputs_sum_error E inputs recipients _ hne hsum]

set_option maxRecDepth 100000 in
/-- Claim C2 on the small instance: the second of three inputs is not compatible. -/
theorem CreateOutputs_rejects_incompatible_witness :
    (CreateOutputs Toy.env Toy.inputsB Toy.recipientsA).2 =
      Except.error (Err.incompatible 1 (classOf Toy.env (Toy.input 1 Toy.p2wsh 2))) :=
  CreateOutputs_rejects_incompatible Toy.env Toy.inputsB Toy.recipientsA 1
    (Toy.input 1 Toy.p2wsh 2) (by decide) (by decide) (by decide)
    (by
      intro j y hj hy
      have hj2 : j = 0 ∨ j = 2 := by
        have := (List.getElem?_eq_some_iff.mp hy).1
        simp only [Toy.inputsB, List.length_cons, List.length_nil] at this
        omega
      rcases hj2 with h | h
      · subst h
        simp only [Toy.inputsB, List.getElem?_cons_zero, Option.some.injEq] at hy
        subst hy
        decide
      · subst h
        simp only [Toy.inputsB, List.getElem?_cons_succ, List.getElem?_cons_zero,
          Option.some.injEq] at hy
        subst hy
        decide)

/-- Claim C3. On a non-empty list of compatible inputs, `CreateOutputs` fails with
the error "sum of input keys is zero" if and only if the sum of all corrected
scalars is `0 mod n`: a prefix that sums to zero does not bring this error when
the total does not, and two inputs with the scalars `a` and `n - a` do. -/
theorem CreateOutputs_sumZero_iff (E : Env) (inputs : List Input)
    (recipients : List Address) (hne : inputs ≠ [])
    (hcompat : ∀ i ∈ inputs, Compatible E i) :
    (CreateOutputs E inputs recipients).2 = Except.error Err.sumZero ↔
      specSum E inputs % E.n = 0 := by
  rw [CreateOutputs_sum_ok E inputs recipients _ hne (sumLoop_of_compatible E inputs hne hcompat)]
  by_cases ha : specSum E inputs % E.n = 0
  · simp [ha]
  · rw [if_neg ha]
    refine ⟨fun h => ?_, fun h => absurd h ha⟩
    cases hop : outpointL (E.sortSort inputs) with
    | none => rw [hop] at h; simp at h
    | some outpoint =>
      rw [hop] at h
      rcases groupLoop_error E _ _ _ _ h with h1 | h1 | h1 <;> simp at h1

set_option maxRecDepth 100000 in
/-- Claim C3 on the small instance: the keys `3` and `7 - 3` are rejected. -/
theorem CreateOutputs_sumZero_iff_witness :
    ((CreateOutputs Toy.env Toy.inputsZ Toy.recipientsA).2 = Except.error Err.sumZero ↔
      specSum Toy.env Toy.inputsZ % Toy.env.n = 0) ∧
    (CreateOutputs Toy.env Toy.inputsZ Toy.recipientsA).2 = Except.error Err.sumZero :=
  ⟨CreateOutputs_sumZero_iff Toy.env Toy.inputsZ Toy.recipientsA (by decide) (by decide),
    by decide⟩

set_option maxRecDepth 100000 in
/-- Claim C4 as stated fails: a call that succeeds on two inputs listed with the
larger outpoint first leaves them in the caller's slice in the other order. -/
theorem CreateOutputs_reorders_inputs :
    (CreateOutputs Toy.env Toy.inputsC []).2 = Except.ok [] ∧
    (CreateOutputs Toy.env Toy.inputsC []).1 =
      [Toy.input 0 Toy.p2wpkh 1, Toy.input 1 Toy.p2wpkh 3] ∧
    (CreateOutputs Toy.env Toy.inputsC []).1 ≠ Toy.inputsC := by
  decide

/-- Claim C4, amended. `CreateOutputs` only reorders its inputs: when the call
returns, the caller's inputs sequence is a permutation of the sequence before
the call, and it is in the same order when the call fails with "no inputs
provided", with an error of the compatibility check or with "sum of input keys
is zero". -/
theorem CreateOutputs_inputs_perm (E : Env) (hsort : SortSpec E.sortSort)
    (inputs : List Input) (recipients : List Address) :
    (CreateOutputs E inputs recipients).1.Perm inputs ∧
    (((CreateOutputs E inputs recipients).2 = Except.error Err.noInputs ∨
      (∃ idx cause, (CreateOutputs E inputs recipients).2 =
        Except.error (Err.unableCheck idx cause)) ∨
      (∃ idx cls, (CreateOutputs E inputs recipients).2 =
        Except.error (Err.incompatible idx cls)) ∨
      (CreateOutputs E inputs recipients).2 = Except.error Err.sumZero) →
      (CreateOutputs E inputs recipients).1 = inputs) := by
  by_cases hne : inputs = []
  · rw [hne, CreateOutputs_nil]
    exact ⟨List.Perm.refl _, fun _ => rfl⟩
  · cases hsum : sumLoop E 0 0 inputs with
    | error e =>
      rw [CreateOutputs_sum_error E inputs recipients e hne hsum]
      exact ⟨List.Perm.refl _, fun _ => rfl⟩
    | ok a =>
      rw [CreateOutputs_sum_ok E inputs recipients a hne hsum]
      by_cases ha : a = 0
      · rw [if_pos ha]
        exact ⟨List.Perm.refl _, fun _ => rfl⟩
      · rw [if_neg ha]
        cases hop : outpointL (E.sortSort inputs) with
        | none =>
          refine ⟨(hsort inputs).1, fun h => ?_⟩
          simp at h
        | some outpoint =>
          refine ⟨(hsort inputs).1, fun h => ?_⟩
          simp only at h
          rcases h with h | ⟨_, _, h⟩ | ⟨_, _, h⟩ | h <;>
            rcases groupLoop_error E _ _ _ _ h with h1 | h1 | h1 <;> simp at h1

set_option maxRecDepth 100000 in
/-- Claim C4, amended, on the small instance: the reordered slice is a
permutation, and the slice of a rejected call is untouched. -/
theorem CreateOutputs_inputs_perm_witness :
    (CreateOutputs Toy.env Toy.inputsC []).1.Perm Toy.inputsC ∧
    (CreateOutputs Toy.env Toy.inputsZ []).1 = Toy.inputsZ :=
  ⟨(CreateOutputs_inputs_perm Toy.env Toy.sort_spec Toy.inputsC []).1,
    (CreateOutputs_inputs_perm Toy.env Toy.sort_spec Toy.inputsZ []).2
      (Or.inr (Or.inr (Or.inr (by decide))))⟩

/-- Claim C5. For a non-empty list of inputs that passes the compatibility check
with a key sum `a ≠ 0`, the outpoint written into the payload of the
"BIP0352/Inputs" hash is the outpoint of one of the inputs, serialised as its
transaction id followed by the four little-endian bytes of its index, and that
serialisation is byte-wise lexicographically at most the serialisation of the
outpoint of every input. -/
theorem CreateOutputs_outpoint_least (E : Env) (hsort : SortSpec E.sortSort)
    (inputs : List Input) (recipients : List Address) (a : Nat) (hne : inputs ≠ [])
    (hsum : sumLoop E 0 0 inputs = Except.ok a) (hnz : a ≠ 0) :
    ∃ input ∈ inputs,
      CreateOutputs E inputs recipients =
        (E.sortSort inputs,
          groupLoop E
            (ModNScalar.Mul E.n a (ModNScalar.SetBytes E.n
              (E.TaggedHash TagBIP0352Inputs
                (serializeOutpoint input.OutPoint ++
                  SerializeCompressed (E.ScalarBaseMult a)))).1)
            (GroupByScanKey recipients) []) ∧
      serializeOutpoint input.OutPoint =
        input.OutPoint.Hash ++ littleEndian 4 input.OutPoint.Index ∧
      ∀ j ∈ inputs,
        bytesCompare (serializeOutpoint input.OutPoint) (serializeOutpoint j.OutPoint) ≠ 1 := by
  obtain ⟨h, hh⟩ := sort_head_exists E.sortSort hsort inputs hne
  obtain ⟨hmem, hleast⟩ := sort_head_least E.sortSort hsort inputs h hh
  refine ⟨h, hmem, ?_, serializeOutpoint_eq _, hleast⟩
  have hop : outpointL (E.sortSort inputs) = some h.OutPoint := by
    simp [outpointL, hh]
  rw [CreateOutputs_sum_ok E inputs recipients a hne hsum, if_neg hnz, hop]
  rfl

set_option maxRecDepth 100000 in
/-- Claim C5 on the small instance. -/
theorem CreateOutputs_outpoint_least_witness :
    ∃ input ∈ Toy.inputsC,
      CreateOutputs Toy.env Toy.inputsC Toy.recipientsA =
        (Toy.env.sortSort Toy.inputsC,
          groupLoop Toy.env
            (ModNScalar.Mul Toy.env.n 4 (ModNScalar.SetBytes Toy.env.n
              (Toy.env.TaggedHash TagBIP0352Inputs
                (serializeOutpoint input.OutPoint ++
                  SerializeCompressed (Toy.env.ScalarBaseMult 4)))).1)
            (GroupByScanKey Toy.recipientsA) []) ∧
      serializeOutpoint input.OutPoint =
        input.OutPoint.Hash ++ littleEndian 4 input.OutPoint.Index ∧
      ∀ j ∈ Toy.inputsC,
        bytesCompare (serializeOutpoint input.OutPoint) (serializeOutpoint j.OutPoint) ≠ 1 :=
  CreateOutputs_outpoint_least Toy.env Toy.sort_spec Toy.inputsC Toy.recipientsA 4
    (by decide) (by decide) (by decide)

/-- Claim C6. For a non-empty list of inputs and every permutation of it, the
serialised outpoint selected as `outpointL` is the same. -/
theorem outpointL_perm_invariant (E : Env) (hsort : SortSpec E.sortSort)
    (inputs perm : List Input) (hne : inputs ≠ []) (hperm : perm.Perm inputs) :
    ∃ o1 o2, outpointL (E.sortSort inputs) = some o1 ∧
      outpointL (E.sortSort perm) = some o2 ∧
      serializeOutpoint o1 = serializeOutpoint o2 := by
  have hne2 : perm ≠ [] := fun h => hne (by rw [h] at hperm; exact hperm.symm.eq_nil)
  obtain ⟨h1, hh1⟩ := sort_head_exists E.sortSort hsort inputs hne
  obtain ⟨h2, hh2⟩ := sort_head_exists E.sortSort hsort perm hne2
  obtain ⟨hmem1, hleast1⟩ := sort_head_least E.sortSort hsort inputs h1 hh1
  obtain ⟨hmem2, hleast2⟩ := sort_head_least E.sortSort hsort perm h2 hh2
  refine ⟨h1.OutPoint, h2.OutPoint, by simp [outpointL, hh1], by simp [outpointL, hh2], ?_⟩
  exact bytesCompare_antisymm (hleast1 h2 (hperm.subset hmem2))
    (hleast2 h1 (hperm.symm.subset hmem1))

set_option maxRecDepth 100000 in
/-- Claim C6 on the small instance: two inputs in their two orders. -/
theorem outpointL_perm_invariant_witness :
    ∃ o1 o2, outpointL (Toy.env.sortSort Toy.inputsC) = some o1 ∧
      outpointL (Toy.env.sortSort Toy.inputsC.reverse) = some o2 ∧
      serializeOutpoint o1 = serializeOutpoint o2 :=
  outpointL_perm_invariant Toy.env Toy.sort_spec Toy.inputsC Toy.inputsC.reverse
    (by decide) (List.reverse_perm Toy.inputsC)

/-- Claim C7. Whenever `CreateOutputs` returns without error, the number of
returned outputs equals the number of recipient addresses passed in. -/
theorem CreateOutputs_length (E : Env) (inputs : List Input) (recipients : List Address)
    (results : List OutputWithAddress)
    (hok : (CreateOutputs E inputs recipients).2 = Except.ok results) :
    results.length = recipients.length := by
  obtain ⟨a, outpoint, _, _, _, _, hloop⟩ :=
    CreateOutputs_ok_elim E inputs recipients results hok
  have haddr := groupLoop_addresses E _ recipients results hloop
  rw [← GroupByScanKey_flatten_length recipients, ← haddr, List.length_map]

set_option maxRecDepth 100000 in
/-- Claim C7 on the small instance: three recipients, three outputs. -/
theorem CreateOutputs_length_witness :
    Toy.outputsA.length = Toy.recipientsA.length :=
  CreateOutputs_length Toy.env Toy.inputsA Toy.recipientsA Toy.outputsA (by decide)

/-- Claim C8. Whenever `CreateOutputs` succeeds, the addresses of the returned
outputs, read in order, are the recipients listed group by group: the groups in
the order in which their distinct scan keys first occur among the recipients,
and inside each group the addresses in their order among the recipients. -/
theorem CreateOutputs_addresses (E : Env) (inputs : List Input) (recipients : List Address)
    (results : List OutputWithAddress)
    (hok : (CreateOutputs E inputs recipients).2 = Except.ok results) :
    results.map (fun o => o.Address) =
      (distinctScanKeys recipients).flatMap
        (fun k => recipients.filter (fun r => r.ScanKey = k)) := by
  obtain ⟨a, outpoint, _, _, _, _, hloop⟩ :=
    CreateOutputs_ok_elim E inputs recipients results hok
  rw [groupLoop_addresses E _ recipients results hloop, GroupByScanKey_eq_specGroups,
    specGroups, List.flatMap_def]

set_option maxRecDepth 100000 in
/-- Claim C8 on the small instance: the third recipient shares the scan key of
the first and comes second among the outputs. -/
theorem CreateOutputs_addresses_witness :
    Toy.outputsA.map (fun o => o.Address) = [Toy.addr 1 2, Toy.addr 1 5, Toy.addr 3 4] ∧
    Toy.outputsA.map (fun o => o.Address) =
      (distinctScanKeys Toy.recipientsA).flatMap
        (fun k => Toy.recipientsA.filter (fun r => r.ScanKey = k)) :=
  ⟨by decide,
    CreateOutputs_addresses Toy.env Toy.inputsA Toy.recipientsA Toy.outputsA (by decide)⟩

/-- Claim C9. `InputCompatible` returns an error exactly when the script cannot be
parsed; otherwise it returns no error, the parsed script, and `true` exactly
when the class is pay-to-pubkey-hash, witness-v0 pay-to-pubkey-hash, witness-v1
taproot or script-hash, the latter without a look at the wrapped script, and
`false` for every other class, such as witness-v0 script-hash. -/
theorem InputCompatible_classification (E : Env) (pkScript : Bytes) :
    ((InputCompatible E pkScript).2.2 ≠ none ↔ E.ParsePkScript pkScript = none) ∧
    InputCompatible E pkScript =
      match E.ParsePkScript pkScript with
      | none => (false, PkScript.zero, some ScriptErr.parsing)
      | some script =>
        (decide (script.Class = ScriptClass.PubKeyHashTy ∨
            script.Class = ScriptClass.WitnessV0PubKeyHashTy ∨
            script.Class = ScriptClass.WitnessV1TaprootTy ∨
            script.Class = ScriptClass.ScriptHashTy), script, none) := by
  unfold InputCompatible
  cases hparse : E.ParsePkScript pkScript with
  | none => simp
  | some script =>
    cases hc : script.Class <;> simp [hc]

/-- Claim C10. For a compatible input the summing loop adds one scalar to the
aggregate: run on this input alone from the sum `acc` it returns `acc` plus that
scalar modulo `n`, and run on this input and further compatible inputs it
returns `acc` plus that scalar plus the corrected scalars of the others, modulo
`n`. For a taproot input the scalar is `t = TweakTaprootPrivKey(a_i, empty root)`
when `t·G` has an even Y and `n - t` when `t·G` has an odd Y, so its public key
has an even Y and the X coordinate of `t·G`; for an input of any other
compatible class it is `a_i` itself. -/
theorem sumLoop_adds_corrected (E : Env) (hneg : NegateSpec E) (i : Input)
    (hc : Compatible E i) (hT : E.TweakTaprootPrivKey i.PrivKey [] < E.n)
    (idx acc : Nat) (rest : List Input) :
    sumLoop E idx acc [i] =
      Except.ok ((acc + correctedKey E (classOf E i) i.PrivKey) % E.n) ∧
    ((∀ j ∈ rest, Compatible E j) →
      sumLoop E idx acc (i :: rest) =
        Except.ok ((acc + correctedKey E (classOf E i) i.PrivKey + specSum E rest) % E.n)) ∧
    sumLoop E idx acc (i :: rest) =
      sumLoop E (idx + 1)
        (ModNScalar.Add E.n acc (correctedKey E (classOf E i) i.PrivKey)) rest ∧
    (classOf E i = ScriptClass.WitnessV1TaprootTy →
      ((E.ScalarBaseMult (E.TweakTaprootPrivKey i.PrivKey [])).y % 2 = 0 →
        correctedKey E (classOf E i) i.PrivKey = E.TweakTaprootPrivKey i.PrivKey []) ∧
      ((E.ScalarBaseMult (E.TweakTaprootPrivKey i.PrivKey [])).y % 2 = 1 →
        correctedKey E (classOf E i) i.PrivKey = E.n - E.TweakTaprootPrivKey i.PrivKey []) ∧
      (E.ScalarBaseMult (correctedKey E (classOf E i) i.PrivKey)).y % 2 = 0 ∧
      (E.ScalarBaseMult (correctedKey E (classOf E i) i.PrivKey)).x =
        (E.ScalarBaseMult (E.TweakTaprootPrivKey i.PrivKey [])).x) ∧
    (classOf E i ≠ ScriptClass.WitnessV1TaprootTy →
      correctedKey E (classOf E i) i.PrivKey = i.PrivKey) := by
  refine ⟨?_, ?_, sumLoop_cons_compatible E idx acc i rest hc, ?_, ?_⟩
  · rw [sumLoop_cons_compatible E idx acc i [] hc]
    rfl
  · intro hrest
    rw [sumLoop_cons_compatible E idx acc i rest hc, sumLoop_compatible E _ _ rest hrest]
    by_cases hr : rest = []
    · simp [hr, ModNScalar.Add, specSum]
    · simp only [hr, if_false, ModNScalar.Add]
      rw [Nat.add_mod, Nat.mod_mod, ← Nat.add_mod]
  · intro hcls
    obtain ⟨hp, hlaw⟩ := hneg
    obtain ⟨hy, hnegate⟩ := hlaw (E.TweakTaprootPrivKey i.PrivKey []) hT
    have hkey : correctedKey E (classOf E i) i.PrivKey =
        if (E.ScalarBaseMult (E.TweakTaprootPrivKey i.PrivKey [])).y % 2 = 1 then
          ModNScalar.Negate E.n (E.TweakTaprootPrivKey i.PrivKey [])
        else E.TweakTaprootPrivKey i.PrivKey [] := by
      simp only [correctedKey, hcls, if_true, SerializeCompressed_head_odd]
    by_cases hodd : (E.ScalarBaseMult (E.TweakTaprootPrivKey i.PrivKey [])).y % 2 = 1
    · rw [hkey, if_pos hodd, hnegate]
      have hyp : (E.p - (E.ScalarBaseMult (E.TweakTaprootPrivKey i.PrivKey [])).y) % E.p =
          E.p - (E.ScalarBaseMult (E.TweakTaprootPrivKey i.PrivKey [])).y :=
        Nat.mod_eq_of_lt (by omega)
      have hne0 : E.TweakTaprootPrivKey i.PrivKey [] ≠ 0 := by
        intro h0
        have hz : ModNScalar.Negate E.n (E.TweakTaprootPrivKey i.PrivKey []) =
            E.TweakTaprootPrivKey i.PrivKey [] := by
          rw [h0]; simp [ModNScalar.Negate]
        rw [hz] at hnegate
        have hyeq := congrArg PublicKey.y hnegate
        simp only [negPoint] at hyeq
        rw [hyp] at hyeq
        omega
      refine ⟨fun heven => by omega, fun _ => ?_, ?_, ?_⟩
      · simp only [ModNScalar.Negate]
        rw [Nat.mod_eq_of_lt hT, Nat.mod_eq_of_lt (by omega)]
      · simp only [negPoint]
        rw [hyp]
        omega
      · simp only [negPoint]
    · rw [hkey, if_neg hodd]
      exact ⟨fun _ => rfl, fun h => absurd h hodd, by omega, rfl⟩
  · intro hcls
    simp only [correctedKey, hcls, if_false]

/-- The small curve obeys the law of negation. -/
theorem Toy.negate_spec : NegateSpec Toy.env := by
  refine ⟨by decide, ?_⟩
  intro a ha
  have hlt : a < 7 := ha
  show (Toy.mul a Toy.G).y < 13 ∧
    Toy.mul (ModNScalar.Negate 7 a) Toy.G = negPoint 13 (Toy.mul a Toy.G)
  interval_cases a <;> decide

set_option maxRecDepth 100000 in
/-- Claim C10 on the small instance: a taproot input whose tweaked key `4` has a
public key with an odd Y; from the sum 3 the loop goes to `3 + (7 - 4) = 6`, and
with a further input of key 2 to `8 mod 7 = 1`. -/
theorem sumLoop_adds_corrected_witness :
    correctedKey Toy.env (classOf Toy.env (Toy.input 256 Toy.p2tr 4)) 4 = 3 ∧
    sumLoop Toy.env 1 3 [Toy.input 256 Toy.p2tr 4] = Except.ok 6 ∧
    sumLoop Toy.env 1 3 [Toy.input 256 Toy.p2tr 4, Toy.input 1 Toy.p2wpkh 2] = Except.ok 1 ∧
    (sumLoop Toy.env 1 3 [Toy.input 256 Toy.p2tr 4] =
      Except.ok
        ((3 + correctedKey Toy.env (classOf Toy.env (Toy.input 256 Toy.p2tr 4)) 4) % 7) ∧
    ((∀ j ∈ [Toy.input 1 Toy.p2wpkh 2], Compatible Toy.env j) →
      sumLoop Toy.env 1 3 [Toy.input 256 Toy.p2tr 4, Toy.input 1 Toy.p2wpkh 2] =
        Except.ok
          ((3 + correctedKey Toy.env (classOf Toy.env (Toy.input 256 Toy.p2tr 4)) 4 +
            specSum Toy.env [Toy.input 1 Toy.p2wpkh 2]) % 7)) ∧
    sumLoop Toy.env 1 3 [Toy.input 256 Toy.p2tr 4, Toy.input 1 Toy.p2wpkh 2] =
      sumLoop Toy.env 2 (ModNScalar.Add 7 3 3) [Toy.input 1 Toy.p2wpkh 2] ∧
    (classOf Toy.env (Toy.input 256 Toy.p2tr 4) = ScriptClass.WitnessV1TaprootTy →
      ((Toy.env.ScalarBaseMult (Toy.env.TweakTaprootPrivKey 4 [])).y % 2 = 0 →
        correctedKey Toy.env (classOf Toy.env (Toy.input 256 Toy.p2tr 4)) 4 =
          Toy.env.TweakTaprootPrivKey 4 []) ∧
      ((Toy.env.ScalarBaseMult (Toy.env.TweakTaprootPrivKey 4 [])).y % 2 = 1 →
        correctedKey Toy.env (classOf Toy.env (Toy.input 256 Toy.p2tr 4)) 4 =
          7 - Toy.env.TweakTaprootPrivKey 4 []) ∧
      (Toy.env.ScalarBaseMult
        (correctedKey Toy.env (classOf Toy.env (Toy.input 256 Toy.p2tr 4)) 4)).y % 2 = 0 ∧
      (Toy.env.ScalarBaseMult
        (correctedKey Toy.env (classOf Toy.env (Toy.input 256 Toy.p2tr 4)) 4)).x =
        (Toy.env.ScalarBaseMult (Toy.env.TweakTaprootPrivKey 4 [])).x) ∧
    (classOf Toy.env (Toy.input 256 Toy.p2tr 4) ≠ ScriptClass.WitnessV1TaprootTy →
      correctedKey Toy.env (classOf Toy.env (Toy.input 256 Toy.p2tr 4)) 4 = 4)) :=
  ⟨by decide, by decide, by decide,
    sumLoop_adds_corrected Toy.env Toy.negate_spec (Toy.input 256 Toy.p2tr 4)
      (by decide) (by decide) 1 3 [Toy.input 1 Toy.p2wpkh 2]⟩

/-! ## Tweaks that are not valid -/

theorem recipientLoop_step_invalid (E : Env) (tweaked : Nat) (scanPubKey : PublicKey)
    (idx : Nat) (r : Address) (rest : List Address) (results : List OutputWithAddress)
    (h : InvalidTweak E (E.ScalarMult tweaked scanPubKey) idx) :
    recipientLoop E tweaked scanPubKey idx (r :: rest) results = Except.error Err.hashOverflow ∨
      recipientLoop E tweaked scanPubKey idx (r :: rest) results =
        Except.error Err.hashZero := by
  rw [recipientLoop_step]
  by_cases h1 : fromBigEndian (E.TaggedHash TagBIP0352SharedSecret
      (SerializeCompressed (E.ScalarMult tweaked scanPubKey) ++ bigEndian 4 idx)) ≥ E.n
  · left; rw [if_pos h1]
  · right
    rw [if_neg h1]
    rcases h with h | h
    · exact absurd h h1
    · rw [if_pos h]

theorem recipientLoop_step_valid (E : Env) (tweaked : Nat) (scanPubKey : PublicKey)
    (idx : Nat) (r : Address) (rest : List Address) (results : List OutputWithAddress)
    (h : ¬ InvalidTweak E (E.ScalarMult tweaked scanPubKey) idx) :
    recipientLoop E tweaked scanPubKey idx (r :: rest) results =
      recipientLoop E tweaked scanPubKey (idx + 1) rest
        (results ++ [⟨r, E.AddNonConst (E.TweakedSpendKey r)
          (E.ScalarBaseMult (specTweak E (E.ScalarMult tweaked scanPubKey) idx))⟩]) := by
  rw [recipientLoop_step]
  have h1 : ¬ fromBigEndian (E.TaggedHash TagBIP0352SharedSecret
      (SerializeCompressed (E.ScalarMult tweaked scanPubKey) ++ bigEndian 4 idx)) ≥ E.n :=
    fun h1 => h (Or.inl h1)
  have h2 : ¬ specTweak E (E.ScalarMult tweaked scanPubKey) idx = 0 := fun h2 => h (Or.inr h2)
  rw [if_neg h1, if_neg h2]

/-- The inner loop fails exactly when some position of the group has a tweak
that is not valid. -/
theorem recipientLoop_error_iff (E : Env) (tweaked : Nat) (scanPubKey : PublicKey)
    (idx : Nat) (g : List Address) (results : List OutputWithAddress) :
    (∃ e, recipientLoop E tweaked scanPubKey idx g results = Except.error e) ↔
      ∃ k, k < g.length ∧ InvalidTweak E (E.ScalarMult tweaked scanPubKey) (idx + k) := by
  induction g generalizing idx results with
  | nil => simp [recipientLoop]
  | cons r rest ih =>
    by_cases hbad : InvalidTweak E (E.ScalarMult tweaked scanPubKey) idx
    · constructor
      · intro _
        exact ⟨0, by simp, hbad⟩
      · intro _
        rcases recipientLoop_step_invalid E tweaked scanPubKey idx r rest results hbad with h | h
        · exact ⟨_, h⟩
        · exact ⟨_, h⟩
    · rw [recipientLoop_step_valid E tweaked scanPubKey idx r rest results hbad, ih]
      constructor
      · rintro ⟨k, hk, hinv⟩
        refine ⟨k + 1, by simp only [List.length_cons]; omega, ?_⟩
        have : idx + (k + 1) = idx + 1 + k := by omega
        rw [this]; exact hinv
      · rintro ⟨k, hk, hinv⟩
        cases k with
        | zero => exact absurd hinv hbad
        | succ k =>
          refine ⟨k, by simp only [List.length_cons] at hk; omega, ?_⟩
          have : idx + 1 + k = idx + (k + 1) := by omega
          rw [this]; exact hinv

/-- With no empty group, the outer loop fails exactly when some recipient has a
tweak that is not valid, and then with one of the two errors of the tweak. -/
theorem groupLoop_error_iff (E : Env) (tweaked : Nat) (groups : List (List Address))
    (results : List OutputWithAddress) (hne : ∀ g ∈ groups, g ≠ []) :
    ((∃ e, groupLoop E tweaked groups results = Except.error e) ↔
      HasInvalidTweak E tweaked groups) ∧
    ∀ e, groupLoop E tweaked groups results = Except.error e →
      e = Err.hashOverflow ∨ e = Err.hashZero := by
  induction groups generalizing results with
  | nil => simp [groupLoop, HasInvalidTweak]
  | cons g groups ih =>
    cases g with
    | nil => exact absurd rfl (hne [] (List.mem_cons_self _ _))
    | cons first others =>
      have hne2 : ∀ g ∈ groups, g ≠ [] := fun g hg => hne g (List.mem_cons_of_mem _ hg)
      have hiff := recipientLoop_error_iff E tweaked first.ScanKey 0 (first :: others) results
      simp only [Nat.zero_add] at hiff
      cases hr : recipientLoop E tweaked first.ScanKey 0 (first :: others) results with
      | error e2 =>
        have hg : groupLoop E tweaked ((first :: others) :: groups) results =
            Except.error e2 := by
          rw [groupLoop, hr]
        refine ⟨⟨fun _ => ?_, fun _ => ⟨e2, hg⟩⟩, fun e he => ?_⟩
        · obtain ⟨k, hk, hinv⟩ := hiff.mp ⟨e2, hr⟩
          exact ⟨first :: others, List.mem_cons_self _ _, first, rfl, k, hk, hinv⟩
        · rw [hg] at he
          injection he with he
          rw [← he]
          exact recipientLoop_error E tweaked first.ScanKey 0 _ results e2 hr
      | ok mid =>
        have hg : groupLoop E tweaked ((first :: others) :: groups) results =
            groupLoop E tweaked groups mid := by
          rw [groupLoop, hr]
        rw [hg]
        obtain ⟨ih1, ih2⟩ := ih mid hne2
        refine ⟨?_, ih2⟩
        rw [ih1]
        constructor
        · rintro ⟨g, hg2, rest⟩
          exact ⟨g, List.mem_cons_of_mem _ hg2, rest⟩
        · rintro ⟨g, hg2, f, hf, k, hk, hinv⟩
          rcases List.mem_cons.mp hg2 with h1 | h1
          · subst h1
            simp only [List.head?_cons, Option.some.injEq] at hf
            subst hf
            have : ∃ e, recipientLoop E tweaked first.ScanKey 0 (first :: others) results =
                Except.error e := hiff.mpr ⟨k, hk, hinv⟩
            rw [hr] at this
            obtain ⟨e, he⟩ := this
            exact absurd he (by simp)
          · exact ⟨g, h1, f, hf, k, hk, hinv⟩

theorem GroupByScanKey_ne_nil (rs : List Address) : ∀ g ∈ GroupByScanKey rs, g ≠ [] := by
  intro g hg
  rw [GroupByScanKey_eq_specGroups] at hg
  obtain ⟨k, hk, rfl⟩ := List.mem_map.mp hg
  have hhead := head_filter_scanKey rs k ((mem_distinctScanKeys rs k).mp hk)
  intro hnil
  rw [hnil] at hhead
  simp at hhead

/-- The path of a call whose inputs pass the checks and whose slice has a first
element after the sort. -/
theorem CreateOutputs_loop (E : Env) (inputs : List Input) (recipients : List Address)
    (a : Nat) (outpoint : OutPoint) (hne : inputs ≠ [])
    (hsum : sumLoop E 0 0 inputs = Except.ok a) (hnz : a ≠ 0)
    (hop : outpointL (E.sortSort inputs) = some outpoint) :
    CreateOutputs E inputs recipients =
      (E.sortSort inputs,
        groupLoop E (tweakedSumKey E outpoint a) (GroupByScanKey recipients) []) := by
  rw [CreateOutputs_sum_ok E inputs recipients a hne hsum, if_neg hnz, hop]

theorem outpointL_exists (E : Env) (hsort : SortSpec E.sortSort) (inputs : List Input)
    (hne : inputs ≠ []) : ∃ outpoint, outpointL (E.sortSort inputs) = some outpoint := by
  obtain ⟨h, hh⟩ := sort_head_exists E.sortSort hsort inputs hne
  exact ⟨h.OutPoint, by simp [outpointL, hh]⟩

theorem recipientLoop_eq_hoisted (E : Env) (tweaked : Nat) (scanPubKey : PublicKey)
    (idx : Nat) (g : List Address) (results : List OutputWithAddress) :
    recipientLoop E tweaked scanPubKey idx g results =
      recipientLoopHoisted E (E.ScalarMult tweaked scanPubKey) idx g results := by
  induction g generalizing idx results with
  | nil => rfl
  | cons r rest ih =>
    rw [recipientLoop, recipientLoopHoisted]
    simp only [ih]

theorem groupLoop_eq_hoisted (E : Env) (tweaked : Nat) (groups : List (List Address))
    (results : List OutputWithAddress) :
    groupLoop E tweaked groups results = groupLoopHoisted E tweaked groups results := by
  induction groups generalizing results with
  | nil => rfl
  | cons g groups ih =>
    cases g with
    | nil => rfl
    | cons first others =>
      rw [groupLoop, groupLoopHoisted, recipientLoop_eq_hoisted]
      cases recipientLoopHoisted E (E.ScalarMult tweaked first.ScanKey) 0 (first :: others)
          results with
      | error e => rfl
      | ok mid => exact ih mid

/-- Claim C11. Once the inputs have passed the checks, if the digest of the
"BIP0352/SharedSecret" hash of any recipient, at its position in its group, is
at least `n` or is zero, `CreateOutputs` returns one of the two errors of the
tweak and no outputs at all, whatever was derived for the recipients before;
there is no retry with another `k`. -/
theorem CreateOutputs_fails_on_invalid_tweak (E : Env) (inputs : List Input)
    (recipients : List Address) (a : Nat) (outpoint : OutPoint) (g : List Address)
    (k : Nat) (r : Address) (hne : inputs ≠ [])
    (hsum : sumLoop E 0 0 inputs = Except.ok a) (hnz : a ≠ 0)
    (hop : outpointL (E.sortSort inputs) = some outpoint)
    (hg : g ∈ GroupByScanKey recipients) (hr : g[k]? = some r)
    (hbad : InvalidTweak E (E.ScalarMult (tweakedSumKey E outpoint a) r.ScanKey) k) :
    (CreateOutputs E inputs recipients).2 = Except.error Err.hashOverflow ∨
      (CreateOutputs E inputs recipients).2 = Except.error Err.hashZero := by
  rw [CreateOutputs_loop E inputs recipients a outpoint hne hsum hnz hop]
  obtain ⟨hiff, hkind⟩ := groupLoop_error_iff E (tweakedSumKey E outpoint a)
    (GroupByScanKey recipients) [] (GroupByScanKey_ne_nil recipients)
  obtain ⟨hk, hrk⟩ := List.getElem?_eq_some_iff.mp hr
  have hmem : r ∈ g := by rw [← hrk]; exact List.getElem_mem hk
  cases hgc : g with
  | nil => rw [hgc] at hmem; simp at hmem
  | cons first others =>
    have hsame := GroupByScanKey_sameScanKey recipients g hg first (by rw [hgc]; rfl) r hmem
    rw [hsame] at hbad
    have hinv : HasInvalidTweak E (tweakedSumKey E outpoint a) (GroupByScanKey recipients) :=
      ⟨g, hg, first, by rw [hgc]; rfl, k, hk, hbad⟩
    obtain ⟨e, he⟩ := hiff.mpr hinv
    rcases hkind e he with h | h
    · left; rw [he, h]
    · right; rw [he, h]

set_option maxRecDepth 100000 in
/-- Claim C11 on the small instance: at position 3 of the first group the digest
is the group order 7, and the call fails although three keys came before. -/
theorem CreateOutputs_fails_on_invalid_tweak_witness :
    (CreateOutputs Toy.env Toy.inputsA Toy.recipientsD).2 = Except.error Err.hashOverflow ∨
      (CreateOutputs Toy.env Toy.inputsA Toy.recipientsD).2 = Except.error Err.hashZero :=
  CreateOutputs_fails_on_invalid_tweak Toy.env Toy.inputsA Toy.recipientsD 6
    ⟨Toy.txid, 256⟩ [Toy.addr 1 2, Toy.addr 1 5, Toy.addr 1 6, Toy.addr 1 1] 3 (Toy.addr 1 1)
    (by decide) (by decide) (by decide) (by decide) (by decide) (by decide) (by decide)

/-- Claim C12. For a non-empty list of compatible inputs whose corrected scalars
do not sum to zero, `CreateOutputs` called with no recipients returns an empty
sequence of outputs and no error. -/
theorem CreateOutputs_no_recipients (E : Env) (hsort : SortSpec E.sortSort)
    (inputs : List Input) (hne : inputs ≠ [])
    (hcompat : ∀ i ∈ inputs, Compatible E i) (hnz : specSum E inputs % E.n ≠ 0) :
    (CreateOutputs E inputs []).2 = Except.ok [] := by
  obtain ⟨outpoint, hop⟩ := outpointL_exists E hsort inputs hne
  rw [CreateOutputs_loop E inputs [] _ outpoint hne
    (sumLoop_of_compatible E inputs hne hcompat) hnz hop]
  rfl

set_option maxRecDepth 100000 in
/-- Claim C12 on the small instance. -/
theorem CreateOutputs_no_recipients_witness :
    (CreateOutputs Toy.env Toy.inputsA []).2 = Except.ok [] :=
  CreateOutputs_no_recipients Toy.env Toy.sort_spec Toy.inputsA (by decide) (by decide)
    (by decide)

/-- Claim C13. With an empty inputs sequence `CreateOutputs` fails with the error
"no inputs provided" and returns no outputs, whatever the recipients are. -/
theorem CreateOutputs_no_inputs (E : Env) (recipients : List Address) :
    (CreateOutputs E [] recipients).2 = Except.error Err.noInputs ∧
    (CreateOutputs E [] recipients).1 = [] := by
  rw [CreateOutputs_nil]
  exact ⟨rfl, rfl⟩

set_option maxRecDepth 100000 in
/-- Claim C14 fails on the code: for two compatible inputs whose keys sum to the
group order, a case whose expected output list is empty, `CreateOutputs` returns
the error "sum of input keys is zero" and not an empty list of outputs. -/
theorem CreateOutputs_zero_sum_vector :
    (CreateOutputs Toy.env Toy.inputsZ Toy.recipientsA).2 = Except.error Err.sumZero ∧
    (CreateOutputs Toy.env Toy.inputsZ Toy.recipientsA).2 ≠ Except.ok [] := by
  decide

/-- Claim C16. The shared secret that the loop over the recipients of a group
computes again for every recipient is `a' · B_scan` for the scan key of the
first recipient of the group, the value computed once per group: the inner loop
equals the loop that is handed that value, and `CreateOutputs` equals the
variant that multiplies once per group. -/
theorem CreateOutputs_eq_hoisted (E : Env) (inputs : List Input)
    (recipients : List Address) :
    (∀ (tweaked : Nat) (scanPubKey : PublicKey) (idx : Nat) (g : List Address)
      (results : List OutputWithAddress),
      recipientLoop E tweaked scanPubKey idx g results =
        recipientLoopHoisted E (E.ScalarMult tweaked scanPubKey) idx g results) ∧
    CreateOutputs E inputs recipients = CreateOutputsHoisted E inputs recipients := by
  refine ⟨recipientLoop_eq_hoisted E, ?_⟩
  unfold CreateOutputs CreateOutputsHoisted
  simp only [groupLoop_eq_hoisted]

/-! ## The order of the inputs -/

theorem bytesCompare_append_left (p a b : Bytes) :
    bytesCompare (p ++ a) (p ++ b) = bytesCompare a b := by
  induction p with
  | nil => rfl
  | cons x xs ih => simp [bytesCompare, ih]

theorem sumLoop_cons_not_compatible (E : Env) (idx acc : Nat) (i : Input)
    (rest : List Input) (h : ¬ Compatible E i) :
    ∃ e, sumLoop E idx acc (i :: rest) = Except.error e := by
  rw [sumLoop]
  rcases hic : InputCompatible E i.Utxo.PkScript with ⟨ok, script, err⟩
  cases err with
  | some err => exact ⟨_, rfl⟩
  | none =>
    cases ok with
    | false => exact ⟨_, rfl⟩
    | true =>
      exfalso
      apply h
      unfold Compatible
      rw [hic]
      exact ⟨rfl, rfl⟩

/-- The summing loop only returns a sum when every input is compatible. -/
theorem sumLoop_ok_compatible (E : Env) (idx acc : Nat) (inputs : List Input) (a : Nat)
    (h : sumLoop E idx acc inputs = Except.ok a) : ∀ i ∈ inputs, Compatible E i := by
  induction inputs generalizing idx acc with
  | nil => intro i hi; simp at hi
  | cons x rest ih =>
    have hx : Compatible E x := by
      by_contra hnot
      obtain ⟨e, he⟩ := sumLoop_cons_not_compatible E idx acc x rest hnot
      rw [he] at h
      simp at h
    rw [sumLoop_cons_compatible E idx acc x rest hx] at h
    intro i hi
    rcases List.mem_cons.mp hi with h1 | h1
    · rw [h1]; exact hx
    · exact ih _ _ h i h1

theorem specSum_perm (E : Env) (l1 l2 : List Input) (h : l1.Perm l2) :
    specSum E l1 = specSum E l2 := by
  unfold specSum
  exact (h.map (specCorrected E)).sum_eq

/-- The tweaked sum key sees the outpoint through its serialisation only. -/
theorem tweakedSumKey_congr (E : Env) (o1 o2 : OutPoint) (a : Nat)
    (h : serializeOutpoint o1 = serializeOutpoint o2) :
    tweakedSumKey E o1 a = tweakedSumKey E o2 a := by
  rw [tweakedSumKey_eq, tweakedSumKey_eq]
  unfold specInputHash
  rw [h]

/-- The serialised outpoint at the head of the sorted slice is the same for two
orders of the inputs. -/
theorem outpointL_serialize_perm (E : Env) (hsort : SortSpec E.sortSort)
    (inputs perm : List Input) (hperm : perm.Perm inputs) (o1 : OutPoint)
    (h1 : outpointL (E.sortSort inputs) = some o1) :
    ∃ o2, outpointL (E.sortSort perm) = some o2 ∧
      serializeOutpoint o2 = serializeOutpoint o1 := by
  have hne : inputs ≠ [] := by
    intro hnil
    have hp := (hsort inputs).1
    rw [hnil] at hp
    rw [hnil, hp.eq_nil] at h1
    simp [outpointL] at h1
  have hne2 : perm ≠ [] := fun h => hne (by rw [h] at hperm; exact hperm.symm.eq_nil)
  obtain ⟨x1, hx1⟩ := sort_head_exists E.sortSort hsort inputs hne
  obtain ⟨x2, hx2⟩ := sort_head_exists E.sortSort hsort perm hne2
  obtain ⟨hmem1, hleast1⟩ := sort_head_least E.sortSort hsort inputs x1 hx1
  obtain ⟨hmem2, hleast2⟩ := sort_head_least E.sortSort hsort perm x2 hx2
  have ho1 : o1 = x1.OutPoint := by
    simp only [outpointL, hx1, Option.map_some', Option.some.injEq] at h1
    exact h1.symm
  refine ⟨x2.OutPoint, by simp [outpointL, hx2], ?_⟩
  rw [ho1]
  exact bytesCompare_antisymm (hleast2 x1 (hperm.symm.subset hmem1))
    (hleast1 x2 (hperm.subset hmem2))

/-- Claim C17. Outpoints of one transaction are ordered by the bytes of the
little-endian index and not by its number: of two inputs of the same
transaction with the indices 1 and 256, in whatever order they are passed, the
outpoint with the index 256 is selected as `outpointL`. -/
theorem outpointL_little_endian_order (E : Env) (hsort : SortSpec E.sortSort)
    (txid : Bytes) (u1 u2 : TxOut) (k1 k2 : Nat) (inputs : List Input)
    (hperm : inputs.Perm [⟨⟨txid, 1⟩, u1, k1⟩, ⟨⟨txid, 256⟩, u2, k2⟩]) :
    outpointL (E.sortSort inputs) = some ⟨txid, 256⟩ ∧
    bytesCompare (serializeOutpoint ⟨txid, 256⟩) (serializeOutpoint ⟨txid, 1⟩) = -1 := by
  have hcmp : bytesCompare (serializeOutpoint ⟨txid, 1⟩) (serializeOutpoint ⟨txid, 256⟩) = 1 := by
    rw [serializeOutpoint_eq, serializeOutpoint_eq, bytesCompare_append_left]
    show bytesCompare (littleEndian 4 1) (littleEndian 4 256) = 1
    decide
  have hne : inputs ≠ [] := by
    intro h; rw [h] at hperm; exact absurd hperm.symm.eq_nil (by simp)
  obtain ⟨h, hh⟩ := sort_head_exists E.sortSort hsort inputs hne
  obtain ⟨hmem, hleast⟩ := sort_head_least E.sortSort hsort inputs h hh
  have hmem2 := hperm.subset hmem
  have h256 : (⟨⟨txid, 256⟩, u2, k2⟩ : Input) ∈ inputs :=
    hperm.symm.subset (by simp)
  constructor
  · simp only [List.mem_cons, List.mem_singleton, List.not_mem_nil, or_false] at hmem2
    rcases hmem2 with h1 | h1
    · exfalso
      have := hleast _ h256
      rw [h1] at this
      exact this hcmp
    · simp [outpointL, hh, h1]
  · rw [bytesCompare_flip, hcmp]

set_option maxRecDepth 100000 in
/-- Claim C17 on the small instance. -/
theorem outpointL_little_endian_order_witness :
    outpointL (Toy.env.sortSort Toy.inputsA) = some ⟨Toy.txid, 256⟩ ∧
    bytesCompare (serializeOutpoint ⟨Toy.txid, 256⟩) (serializeOutpoint ⟨Toy.txid, 1⟩) = -1 :=
  outpointL_little_endian_order Toy.env Toy.sort_spec Toy.txid ⟨0, Toy.p2wpkh⟩ ⟨0, Toy.p2tr⟩
    3 4 Toy.inputsA (List.Perm.refl _)

/-- Claim C18. If `CreateOutputs` succeeds on a list of inputs, it succeeds on
every permutation of it, for the same recipients, and returns the same outputs:
the summed key and the serialised outpoint do not depend on the order. -/
theorem CreateOutputs_perm_invariant (E : Env) (hsort : SortSpec E.sortSort)
    (inputs perm : List Input) (recipients : List Address)
    (results : List OutputWithAddress) (hperm : perm.Perm inputs)
    (hok : (CreateOutputs E inputs recipients).2 = Except.ok results) :
    (CreateOutputs E perm recipients).2 = Except.ok results := by
  obtain ⟨a, outpoint, hne, hsum, hnz, hop, hloop⟩ :=
    CreateOutputs_ok_elim E inputs recipients results hok
  have hcompat := sumLoop_ok_compatible E 0 0 inputs a hsum
  have hne2 : perm ≠ [] := fun h => hne (by rw [h] at hperm; exact hperm.symm.eq_nil)
  have hcompat2 : ∀ i ∈ perm, Compatible E i := fun i hi => hcompat i (hperm.subset hi)
  have hsum2 := sumLoop_of_compatible E perm hne2 hcompat2
  rw [sumLoop_of_compatible E inputs hne hcompat] at hsum
  injection hsum with hsum
  rw [specSum_perm E perm inputs hperm, hsum] at hsum2
  obtain ⟨o2, hop2, hser⟩ := outpointL_serialize_perm E hsort inputs perm hperm outpoint hop
  rw [CreateOutputs_loop E perm recipients a o2 hne2 hsum2 hnz hop2,
    tweakedSumKey_congr E o2 outpoint a hser]
  exact hloop

set_option maxRecDepth 100000 in
/-- Claim C18 on the small instance: the two inputs in the other order. -/
theorem CreateOutputs_perm_invariant_witness :
    (CreateOutputs Toy.env Toy.inputsA.reverse Toy.recipientsA).2 = Except.ok Toy.outputsA :=
  CreateOutputs_perm_invariant Toy.env Toy.sort_spec Toy.inputsA Toy.inputsA.reverse
    Toy.recipientsA Toy.outputsA (List.reverse_perm Toy.inputsA) (by decide)

/-- Claim C19. After every call the caller's inputs slice is a permutation of its
contents before the call, every element with its outpoint, utxo and private key
as it was: the tweak and the negation of the summing loop work on a copy of the
key. When the call returns before the sort (no inputs, an error of the
compatibility check, a zero sum) the order is as it was too. -/
theorem CreateOutputs_inputs_elements_unchanged (E : Env) (hsort : SortSpec E.sortSort)
    (inputs : List Input) (recipients : List Address) :
    (CreateOutputs E inputs recipients).1.Perm inputs ∧
    (∀ x, x ∈ (CreateOutputs E inputs recipients).1 ↔ x ∈ inputs) ∧
    ((CreateOutputs E inputs recipients).1.map (fun i => i.PrivKey)).Perm
      (inputs.map (fun i => i.PrivKey)) ∧
    ((inputs = [] ∨ (∃ e, sumLoop E 0 0 inputs = Except.error e) ∨
        sumLoop E 0 0 inputs = Except.ok 0) →
      (CreateOutputs E inputs recipients).1 = inputs) := by
  have hperm : (CreateOutputs E inputs recipients).1.Perm inputs := by
    by_cases hne : inputs = []
    · rw [hne, CreateOutputs_nil]
    · cases hsum : sumLoop E 0 0 inputs with
      | error e => rw [CreateOutputs_sum_error E inputs recipients e hne hsum]
      | ok a =>
        rw [CreateOutputs_sum_ok E inputs recipients a hne hsum]
        by_cases ha : a = 0
        · rw [if_pos ha]
        · rw [if_neg ha]
          cases hop : outpointL (E.sortSort inputs) with
          | none => exact (hsort inputs).1
          | some outpoint => exact (hsort inputs).1
  refine ⟨hperm, fun x => hperm.mem_iff, hperm.map _, ?_⟩
  rintro (h | ⟨e, h⟩ | h)
  · rw [h, CreateOutputs_nil]
  · by_cases hne : inputs = []
    · rw [hne, CreateOutputs_nil]
    · rw [CreateOutputs_sum_error E inputs recipients e hne h]
  · by_cases hne : inputs = []
    · rw [hne, CreateOutputs_nil]
    · rw [CreateOutputs_sum_ok E inputs recipients 0 hne h, if_pos rfl]

set_option maxRecDepth 100000 in
/-- Claim C19 on the small instance: a call that sorts and a call that stops at
the zero sum. -/
theorem CreateOutputs_inputs_elements_unchanged_witness :
    (CreateOutputs Toy.env Toy.inputsC Toy.recipientsA).1.Perm Toy.inputsC ∧
    (CreateOutputs Toy.env Toy.inputsZ Toy.recipientsA).1 = Toy.inputsZ :=
  ⟨(CreateOutputs_inputs_elements_unchanged Toy.env Toy.sort_spec Toy.inputsC
      Toy.recipientsA).1,
    (CreateOutputs_inputs_elements_unchanged Toy.env Toy.sort_spec Toy.inputsZ
      Toy.recipientsA).2.2.2 (Or.inr (Or.inr (by decide)))⟩

theorem mul_mod_eq_zero_iff_of_prime (n a h : Nat) (hprime : Nat.Prime n) (ha0 : a ≠ 0)
    (han : a < n) : (a * h) % n = 0 ↔ h % n = 0 := by
  constructor
  · intro hz
    have hdvd : n ∣ a * h := Nat.dvd_of_mod_eq_zero hz
    rcases hprime.dvd_mul.mp hdvd with h1 | h1
    · exact absurd (Nat.le_of_dvd (Nat.pos_of_ne_zero ha0) h1) (not_le.mpr han)
    · exact Nat.mod_eq_zero_of_dvd h1
  · intro hz
    have hdvd : n ∣ h := Nat.dvd_of_mod_eq_zero hz
    exact Nat.mod_eq_zero_of_dvd (Dvd.dvd.mul_left hdvd a)

/-- Claim C20. The digest of the "BIP0352/Inputs" hash is reduced modulo `n` and
multiplied into the summed key with no check for overflow or zero: after the
checks of the inputs the call is the loop over the groups with the scalar
`a' = a · inputHash mod n`, and it fails only where a tweak of a shared secret
is not valid. For a prime `n` and `a ≠ 0`, `a'` is zero if and only if
`inputHash` is `0 mod n`. -/
theorem inputHash_unchecked (E : Env) (hsort : SortSpec E.sortSort)
    (hprime : Nat.Prime E.n) (inputs : List Input) (recipients : List Address) (a : Nat)
    (hne : inputs ≠ []) (hsum : sumLoop E 0 0 inputs = Except.ok a) (hnz : a ≠ 0) :
    ∃ outpoint, outpointL (E.sortSort inputs) = some outpoint ∧
      tweakedSumKey E outpoint a = (a * (specInputHash E outpoint a % E.n)) % E.n ∧
      (CreateOutputs E inputs recipients).2 =
        groupLoop E ((a * specInputHash E outpoint a) % E.n) (GroupByScanKey recipients) [] ∧
      ((a * specInputHash E outpoint a) % E.n = 0 ↔ specInputHash E outpoint a % E.n = 0) ∧
      (specInputHash E outpoint a % E.n ≠ 0 → tweakedSumKey E outpoint a ≠ 0) ∧
      (∀ e, (CreateOutputs E inputs recipients).2 = Except.error e →
        HasInvalidTweak E ((a * specInputHash E outpoint a) % E.n)
          (GroupByScanKey recipients)) := by
  obtain ⟨outpoint, hop⟩ := outpointL_exists E hsort inputs hne
  have hcompat := sumLoop_ok_compatible E 0 0 inputs a hsum
  have han : a < E.n := by
    have h2 := sumLoop_of_compatible E inputs hne hcompat
    rw [hsum] at h2
    injection h2 with h2
    rw [h2]
    exact Nat.mod_lt _ hprime.pos
  have hiff := mul_mod_eq_zero_iff_of_prime E.n a (specInputHash E outpoint a) hprime hnz han
  refine ⟨outpoint, hop, ?_, ?_, hiff, ?_, ?_⟩
  · rw [tweakedSumKey_eq, Nat.mul_mod_mod]
  · rw [CreateOutputs_loop E inputs recipients a outpoint hne hsum hnz hop, tweakedSumKey_eq]
  · intro hh
    rw [tweakedSumKey_eq]
    exact fun hz => hh (hiff.mp hz)
  · intro e he
    rw [CreateOutputs_loop E inputs recipients a outpoint hne hsum hnz hop,
      tweakedSumKey_eq] at he
    exact (groupLoop_error_iff E _ (GroupByScanKey recipients) []
      (GroupByScanKey_ne_nil recipients)).1.mp ⟨e, he⟩

set_option maxRecDepth 100000 in
/-- Claim C20 on the small instance, where the group order is the prime 7. -/
theorem inputHash_unchecked_witness :
    ∃ outpoint, outpointL (Toy.env.sortSort Toy.inputsA) = some outpoint ∧
      tweakedSumKey Toy.env outpoint 6 = (6 * (specInputHash Toy.env outpoint 6 % 7)) % 7 ∧
      (CreateOutputs Toy.env Toy.inputsA Toy.recipientsD).2 =
        groupLoop Toy.env ((6 * specInputHash Toy.env outpoint 6) % 7)
          (GroupByScanKey Toy.recipientsD) [] ∧
      ((6 * specInputHash Toy.env outpoint 6) % 7 = 0 ↔
        specInputHash Toy.env outpoint 6 % 7 = 0) ∧
      (specInputHash Toy.env outpoint 6 % 7 ≠ 0 → tweakedSumKey Toy.env outpoint 6 ≠ 0) ∧
      (∀ e, (CreateOutputs Toy.env Toy.inputsA Toy.recipientsD).2 = Except.error e →
        HasInvalidTweak Toy.env ((6 * specInputHash Toy.env outpoint 6) % 7)
          (GroupByScanKey Toy.recipientsD)) :=
  inputHash_unchecked Toy.env Toy.sort_spec (by decide) Toy.inputsA Toy.recipientsD 6
    (by decide) (by decide) (by decide)

end SilentPayments

/-! ## The block progress logger -/

namespace Netsync

theorem wrapInt64_of_fits (x : Int) (h1 : -9223372036854775808 ≤ x)
    (h2 : x < 9223372036854775808) : wrapInt64 x = x := by
  unfold wrapInt64
  omega

theorem timeSub_lt_ten_seconds (t u : Int) :
    timeSub t u < wrapInt64 (Second * 10) ↔ t - u < 10 * Second := by
  have hten : wrapInt64 (Second * 10) = 10000000000 := by decide
  rw [hten]
  simp only [timeSub, maxDuration, minDuration, Second]
  split_ifs <;> omega

/-- A call less than ten seconds after the last log time hands over no message
and counts the block and its transactions. -/
theorem LogBlockHeight_quiet (b : blockProgressLogger) (c : LogCall)
    (h : c.now - b.lastBlockLogTime < 10 * Second) :
    LogBlockHeight b c =
      (⟨wrapInt64 (b.receivedLogBlocks + 1),
        wrapInt64 (b.receivedLogTx + wrapInt64 c.numTransactions),
        b.lastBlockLogTime, b.progressAction⟩, none) := by
  unfold LogBlockHeight
  simp only
  rw [if_pos ((timeSub_lt_ten_seconds c.now b.lastBlockLogTime).mpr h)]

/-- A call ten seconds or more after the last log time hands over a message with
the two counters, this block included, and starts the counters again. -/
theorem LogBlockHeight_loud (b : blockProgressLogger) (c : LogCall)
    (h : 10 * Second ≤ c.now - b.lastBlockLogTime) :
    ∃ msg, LogBlockHeight b c = (⟨0, 0, c.now, b.progressAction⟩, some msg) ∧
      msg.receivedLogBlocks = wrapInt64 (b.receivedLogBlocks + 1) ∧
      msg.receivedLogTx = wrapInt64 (b.receivedLogTx + wrapInt64 c.numTransactions) := by
  unfold LogBlockHeight
  simp only
  rw [if_neg (fun hlt => absurd ((timeSub_lt_ten_seconds c.now b.lastBlockLogTime).mp hlt)
    (not_lt.mpr h))]
  exact ⟨_, rfl, rfl, rfl⟩

/-- A run of calls that are all less than ten seconds after the last log time
hands over nothing and adds up the blocks and the transactions. -/
theorem runLog_quiet (b : blockProgressLogger) (quiet : List LogCall)
    (hb : 0 ≤ b.receivedLogBlocks) (ht : 0 ≤ b.receivedLogTx)
    (hquiet : ∀ q ∈ quiet, q.now - b.lastBlockLogTime < 10 * Second)
    (hfitB : b.receivedLogBlocks + (quiet.length : Int) < 9223372036854775808)
    (hfitT : b.receivedLogTx + (totalTransactions quiet : Int) < 9223372036854775808) :
    runLog b quiet =
      (⟨b.receivedLogBlocks + (quiet.length : Int),
        b.receivedLogTx + (totalTransactions quiet : Int),
        b.lastBlockLogTime, b.progressAction⟩, quiet.map (fun _ => none)) := by
  induction quiet generalizing b with
  | nil => simp [runLog, totalTransactions]
  | cons q rest ih =>
    have hq := hquiet q (List.mem_cons_self q rest)
    have htot : (totalTransactions (q :: rest) : Int) =
        (q.numTransactions : Int) + (totalTransactions rest : Int) := by
      simp [totalTransactions]
    rw [htot] at hfitT ⊢
    simp only [List.length_cons, Nat.cast_add, Nat.cast_one] at hfitB ⊢
    have hn : (0 : Int) ≤ (q.numTransactions : Int) := Int.ofNat_nonneg _
    have hr : (0 : Int) ≤ (totalTransactions rest : Int) := Int.ofNat_nonneg _
    have hl : (0 : Int) ≤ (rest.length : Int) := Int.ofNat_nonneg _
    have w1 : wrapInt64 (q.numTransactions : Int) = (q.numTransactions : Int) :=
      wrapInt64_of_fits _ (by omega) (by omega)
    have w2 : wrapInt64 (b.receivedLogBlocks + 1) = b.receivedLogBlocks + 1 :=
      wrapInt64_of_fits _ (by omega) (by omega)
    have w3 : wrapInt64 (b.receivedLogTx + (q.numTransactions : Int)) =
        b.receivedLogTx + (q.numTransactions : Int) :=
      wrapInt64_of_fits _ (by omega) (by omega)
    rw [runLog, LogBlockHeight_quiet b q hq]
    simp only [w1, w2, w3]
    rw [ih ⟨b.receivedLogBlocks + 1, b.receivedLogTx + (q.numTransactions : Int),
      b.lastBlockLogTime, b.progressAction⟩ (by simp only; omega) (by simp only; omega)
      (fun x hx => hquiet x (List.mem_cons_of_mem q hx)) (by simp only; omega)
      (by simp only; omega)]
    simp only [List.map_cons, Prod.mk.injEq, blockProgressLogger.mk.injEq, and_true, true_and]
    constructor <;> omega

/-- The calls between two messages: from a logger whose counters are 0, calls
less than ten seconds after its last log time hand over nothing and are counted,
and the next call ten seconds or more after it hands over a message with the
counts of all these calls, while the counts fit in an `int64`. -/
theorem runLog_segment (b : blockProgressLogger) (quiet : List LogCall)
    (c : LogCall) (hblocks : b.receivedLogBlocks = 0) (htx : b.receivedLogTx = 0)
    (hquiet : ∀ q ∈ quiet, q.now - b.lastBlockLogTime < 10 * Second)
    (hfitB : (quiet.length : Int) + 1 < 9223372036854775808)
    (hfitT : (totalTransactions quiet : Int) + (c.numTransactions : Int) <
      9223372036854775808) :
    (∀ (s : blockProgressLogger) (d : LogCall),
      ((LogBlockHeight s d).2 ≠ none ↔ 10 * Second ≤ d.now - s.lastBlockLogTime) ∧
      ((LogBlockHeight s d).2 ≠ none →
        (LogBlockHeight s d).1 = ⟨0, 0, d.now, s.progressAction⟩) ∧
      ((LogBlockHeight s d).2 = none →
        (LogBlockHeight s d).1 =
          ⟨wrapInt64 (s.receivedLogBlocks + 1),
            wrapInt64 (s.receivedLogTx + wrapInt64 d.numTransactions),
            s.lastBlockLogTime, s.progressAction⟩)) ∧
    runLog b quiet =
      (⟨(quiet.length : Int), (totalTransactions quiet : Int), b.lastBlockLogTime,
        b.progressAction⟩, quiet.map (fun _ => none)) ∧
    (c.now - b.lastBlockLogTime < 10 * Second →
      LogBlockHeight (runLog b quiet).1 c =
        (⟨(quiet.length : Int) + 1,
          (totalTransactions quiet : Int) + (c.numTransactions : Int),
          b.lastBlockLogTime, b.progressAction⟩, none)) ∧
    (10 * Second ≤ c.now - b.lastBlockLogTime →
      ∃ msg, LogBlockHeight (runLog b quiet).1 c =
          (⟨0, 0, c.now, b.progressAction⟩, some msg) ∧
        msg.receivedLogBlocks = (quiet.length : Int) + 1 ∧
        msg.receivedLogTx = (totalTransactions quiet : Int) + (c.numTransactions : Int)) := by
  have hl : (0 : Int) ≤ (quiet.length : Int) := Int.ofNat_nonneg _
  have hr : (0 : Int) ≤ (totalTransactions quiet : Int) := Int.ofNat_nonneg _
  have hn : (0 : Int) ≤ (c.numTransactions : Int) := Int.ofNat_nonneg _
  have hrun := runLog_quiet b quiet (by omega) (by omega) hquiet (by omega) (by omega)
  rw [hblocks, htx, Int.zero_add, Int.zero_add] at hrun
  have w1 : wrapInt64 (c.numTransactions : Int) = (c.numTransactions : Int) :=
    wrapInt64_of_fits _ (by omega) (by omega)
  have w2 : wrapInt64 ((quiet.length : Int) + 1) = (quiet.length : Int) + 1 :=
    wrapInt64_of_fits _ (by omega) (by omega)
  have w3 : wrapInt64 ((totalTransactions quiet : Int) + (c.numTransactions : Int)) =
      (totalTransactions quiet : Int) + (c.numTransactions : Int) :=
    wrapInt64_of_fits _ (by omega) (by omega)
  refine ⟨fun s d => ?_, hrun, fun hc => ?_, fun hc => ?_⟩
  · by_cases hd : d.now - s.lastBlockLogTime < 10 * Second
    · rw [LogBlockHeight_quiet s d hd]
      refine ⟨?_, ?_, fun _ => rfl⟩
      · simp only [ne_eq, not_true_eq_false, false_iff, not_le]
        exact hd
      · intro h; exact absurd rfl h
    · obtain ⟨msg, hmsg, _, _⟩ := LogBlockHeight_loud s d (not_lt.mp hd)
      rw [hmsg]
      refine ⟨?_, fun _ => rfl, ?_⟩
      · simp only [ne_eq, reduceCtorEq, not_false_eq_true, true_iff]
        exact not_lt.mp hd
      · intro h; simp at h
  · rw [hrun]
    show LogBlockHeight ⟨(quiet.length : Int), (totalTransactions quiet : Int),
      b.lastBlockLogTime, b.progressAction⟩ c = _
    rw [LogBlockHeight_quiet ⟨(quiet.length : Int), (totalTransactions quiet : Int),
      b.lastBlockLogTime, b.progressAction⟩ c hc]
    simp only [w1, w2, w3]
  · rw [hrun]
    show ∃ msg, LogBlockHeight ⟨(quiet.length : Int), (totalTransactions quiet : Int),
      b.lastBlockLogTime, b.progressAction⟩ c = _ ∧ _
    obtain ⟨msg, hmsg, hb, ht⟩ := LogBlockHeight_loud
      ⟨(quiet.length : Int), (totalTransactions quiet : Int), b.lastBlockLogTime,
        b.progressAction⟩ c hc
    refine ⟨msg, hmsg, ?_, ?_⟩
    · rw [hb, w2]
    · rw [ht, w1, w3]

/-- Claim C15. A call of `LogBlockHeight` hands over a message exactly when the
reading of the clock is ten seconds or more after the last log time; the last
log time of a new logger is the reading at its construction, and the counters of
a new logger are 0; a call that hands over a message resets both counters to 0
and takes its reading as the last log time, and a call that does not adds 1 to
the block counter and the number of transactions of the block to the
transaction counter. So from a logger whose counters are 0 (a new one, or one
that has just handed over a message), after calls that hand over nothing the
next message reports exactly the blocks and the transactions of the calls since
then, while these numbers fit in an `int64`. -/
theorem LogBlockHeight_progress (b : blockProgressLogger) (quiet : List LogCall)
    (c : LogCall) (hblocks : b.receivedLogBlocks = 0) (htx : b.receivedLogTx = 0)
    (hquiet : ∀ q ∈ quiet, q.now - b.lastBlockLogTime < 10 * Second)
    (hfitB : (quiet.length : Int) + 1 < 9223372036854775808)
    (hfitT : (totalTransactions quiet : Int) + (c.numTransactions : Int) <
      9223372036854775808) :
    (∀ (s : blockProgressLogger) (d : LogCall),
      ((LogBlockHeight s d).2 ≠ none ↔ 10 * Second ≤ d.now - s.lastBlockLogTime) ∧
      ((LogBlockHeight s d).2 ≠ none →
        (LogBlockHeight s d).1 = ⟨0, 0, d.now, s.progressAction⟩) ∧
      ((LogBlockHeight s d).2 = none →
        (LogBlockHeight s d).1 =
          ⟨wrapInt64 (s.receivedLogBlocks + 1),
            wrapInt64 (s.receivedLogTx + wrapInt64 d.numTransactions),
            s.lastBlockLogTime, s.progressAction⟩)) ∧
    (∀ (progressMessage : String) (t0 : Int),
      (newBlockProgressLogger progressMessage t0).receivedLogBlocks = 0 ∧
      (newBlockProgressLogger progressMessage t0).receivedLogTx = 0 ∧
      (newBlockProgressLogger progressMessage t0).lastBlockLogTime = t0 ∧
      (newBlockProgressLogger progressMessage t0).progressAction = progressMessage ∧
      (∀ d : LogCall,
        (LogBlockHeight (newBlockProgressLogger progressMessage t0) d).2 ≠ none ↔
          10 * Second ≤ d.now - t0) ∧
      ((∀ q ∈ quiet, q.now - t0 < 10 * Second) → 10 * Second ≤ c.now - t0 →
        ∃ msg, LogBlockHeight (runLog (newBlockProgressLogger progressMessage t0) quiet).1 c =
            (⟨0, 0, c.now, progressMessage⟩, some msg) ∧
          msg.receivedLogBlocks = (quiet.length : Int) + 1 ∧
          msg.receivedLogTx =
            (totalTransactions quiet : Int) + (c.numTransactions : Int))) ∧
    runLog b quiet =
      (⟨(quiet.length : Int), (totalTransactions quiet : Int), b.lastBlockLogTime,
        b.progressAction⟩, quiet.map (fun _ => none)) ∧
    (c.now - b.lastBlockLogTime < 10 * Second →
      LogBlockHeight (runLog b quiet).1 c =
        (⟨(quiet.length : Int) + 1,
          (totalTransactions quiet : Int) + (c.numTransactions : Int),
          b.lastBlockLogTime, b.progressAction⟩, none)) ∧
    (10 * Second ≤ c.now - b.lastBlockLogTime →
      ∃ msg, LogBlockHeight (runLog b quiet).1 c =
          (⟨0, 0, c.now, b.progressAction⟩, some msg) ∧
        msg.receivedLogBlocks = (quiet.length : Int) + 1 ∧
        msg.receivedLogTx = (totalTransactions quiet : Int) + (c.numTransactions : Int)) := by
  obtain ⟨hstep, hrun, hsilent, hloud⟩ := runLog_segment b quiet c hblocks htx hquiet hfitB hfitT
  refine ⟨hstep, fun progressMessage t0 => ?_, hrun, hsilent, hloud⟩
  refine ⟨rfl, rfl, rfl, rfl, fun d => (hstep (newBlockProgressLogger progressMessage t0) d).1,
    fun hq hc => ?_⟩
  exact (runLog_segment (newBlockProgressLogger progressMessage t0) quiet c rfl rfl hq
    hfitB hfitT).2.2.2 hc

set_option maxRecDepth 100000 in
/-- Claim C15 on a logger constructed at the instant `constructionTime`: four
blocks within ten seconds of the construction, the last of them more than ten
seconds after the instant 0, then a block more than ten seconds after the
construction, whose message reports 5 blocks and 17 transactions. -/
theorem LogBlockHeight_progress_witness :
    (runLog (newBlockProgressLogger "Processed" constructionTime)
        (quietCalls ++ [loudCall, lateCall])).2.map
        (fun m => m.map (fun msg => (msg.receivedLogBlocks, msg.receivedLogTx))) =
      [none, none, none, none, some (5, 17)] ∧
    (runLog (newBlockProgressLogger "Processed" constructionTime)
        (quietCalls ++ [loudCall, lateCall])).1 =
      ⟨0, 0, 15123456789, "Processed"⟩ ∧
    ∃ msg, LogBlockHeight
          (runLog (newBlockProgressLogger "Processed" constructionTime)
            (quietCalls ++ [loudCall])).1 lateCall =
        (⟨0, 0, lateCall.now,
          (newBlockProgressLogger "Processed" constructionTime).progressAction⟩, some msg) ∧
      msg.receivedLogBlocks = ((quietCalls ++ [loudCall]).length : Int) + 1 ∧
      msg.receivedLogTx =
        (totalTransactions (quietCalls ++ [loudCall]) : Int) +
          (lateCall.numTransactions : Int) :=
  ⟨by decide, by decide,
    (LogBlockHeight_progress (newBlockProgressLogger "Processed" constructionTime)
      (quietCalls ++ [loudCall]) lateCall
      (by decide) (by decide) (by decide) (by decide) (by decide)).2.2.2.2 (by decide)⟩

end Netsync
